import Mathlib

/-!
Verification of the Kruskal MST implementation (`Kruskal_algo.py`).

The development shallowly embeds the two core components of the source:

* `UnionFind` with `find` (recursive, with path compression) and `union`
  (union by rank), mutating state modelled by explicit state passing on a
  structure of two parallel `List Nat` fields, exactly mirroring the
  Python arrays `parent` and `rank`;
* `kruskal_mst`, which stably sorts the edge list by weight, then greedily
  accepts edges joining distinct union-find components, with early
  termination once `n - 1` edges are accepted.

Python's recursion is modelled with an explicit fuel argument (the Python
code has no fuel; on the well-formed states that arise in use the fuel
`parent.length` is never exhausted, which is proved below).  A separate
model `pyFind` captures Python's list indexing semantics for negative and
out-of-range indices, used by the error-handling claim.
-/

/-- An edge is a triple `(weight, u, v)`, as in the Python tuples. -/
abbrev Edge := Int × Nat × Nat

/-- Union-Find (Disjoint Set) with path compression and union by rank,
with the two parallel arrays of the Python class. -/
structure UnionFind where
  parent : List Nat
  rank : List Nat
deriving Repr, DecidableEq

/-- Constructor `UnionFind.__init__`: `parent = list(range(size))`,
`rank = [0] * size`. -/
def UnionFind.init (size : Nat) : UnionFind :=
  ⟨List.range size, List.replicate size 0⟩

/-- Fuelled embedding of the recursive `find` of the source:
`if self.parent[node] != node: self.parent[node] = self.find(self.parent[node]);`
`return self.parent[node]`.  Returns the root together with the parent
array after path compression. -/
def findAux (p : List Nat) (node : Nat) : Nat → Nat × List Nat
  | 0 => (node, p)
  | fuel + 1 =>
    let q := p.getD node node
    if q = node then (node, p)
    else
      let res := findAux p q fuel
      (res.1, res.2.set node res.1)

/-- `UnionFind.find`: run `findAux` with fuel `parent.length`, which is
shown below to suffice on well-formed states. -/
def UnionFind.find (uf : UnionFind) (node : Nat) : Nat × UnionFind :=
  let res := findAux uf.parent node uf.parent.length
  (res.1, ⟨res.2, uf.rank⟩)

/-- `UnionFind.union`: `root_a = find(a)`, `root_b = find(b)`; if equal
return `False`; otherwise attach the root of smaller rank below the root
of larger rank (ties: `root_b` under `root_a`, incrementing the rank of
`root_a`) and return `True`. -/
def UnionFind.union (uf : UnionFind) (a b : Nat) : Bool × UnionFind :=
  let fa := uf.find a
  let fb := fa.2.find b
  let ra := fa.1
  let rb := fb.1
  let uf2 := fb.2
  if ra = rb then (false, uf2)
  else if uf2.rank.getD ra 0 < uf2.rank.getD rb 0 then
    (true, ⟨uf2.parent.set ra rb, uf2.rank⟩)
  else if uf2.rank.getD rb 0 < uf2.rank.getD ra 0 then
    (true, ⟨uf2.parent.set rb ra, uf2.rank⟩)
  else
    (true, ⟨uf2.parent.set rb ra, uf2.rank.set ra (uf2.rank.getD ra 0 + 1)⟩)

/-- Pure (non-mutating) fuelled chase of parent pointers to the root. -/
def rootAux (p : List Nat) (node : Nat) : Nat → Nat
  | 0 => node
  | fuel + 1 =>
    let q := p.getD node node
    if q = node then node else rootAux p q fuel

/-- The root of the set containing `x`, chased with fuel `parent.length`. -/
def UnionFind.rootN (uf : UnionFind) (x : Nat) : Nat :=
  rootAux uf.parent x uf.parent.length

/-- The list of (non-root) nodes visited by `find` on the way from `x` to
its root, in visiting order. -/
def pathAux (p : List Nat) (x : Nat) : Nat → List Nat
  | 0 => []
  | fuel + 1 =>
    let q := p.getD x x
    if q = x then [] else x :: pathAux p q fuel

/-- Nodes whose parent pointer is rewritten by `uf.find x`. -/
def UnionFind.findPath (uf : UnionFind) (x : Nat) : List Nat :=
  pathAux uf.parent x uf.parent.length

/-- `i` is a root of the parent forest. -/
def isRoot (p : List Nat) (i : Nat) : Prop := p.getD i i = i

instance (p : List Nat) (i : Nat) : Decidable (isRoot p i) := by
  unfold isRoot; infer_instance

/-- Well-formedness of a union-find state: the arrays have equal length,
parent pointers stay in range, and ranks strictly increase along parent
pointers (the classical union-by-rank invariant, which makes every parent
chain acyclic and of length at most `parent.length`). -/
structure UnionFind.WF (uf : UnionFind) : Prop where
  rank_len : uf.rank.length = uf.parent.length
  parent_lt : ∀ i, i < uf.parent.length → uf.parent.getD i i < uf.parent.length
  rank_chain : ∀ i, i < uf.parent.length → uf.parent.getD i i ≠ i →
    uf.rank.getD i 0 < uf.rank.getD (uf.parent.getD i i) 0

/-- The number of distinct sets: distinct `find` results over `[0, n)`. -/
def UnionFind.setsCount (uf : UnionFind) : Nat :=
  ((Finset.range uf.parent.length).image (fun x => (uf.find x).1)).card

/-- The set of indices whose rank is at least that of `i`; the strict
decrease of its cardinality along parent pointers bounds chain lengths. -/
def UnionFind.rankAbove (uf : UnionFind) (i : Nat) : Finset Nat :=
  (Finset.range uf.parent.length).filter
    (fun j => uf.rank.getD i 0 ≤ uf.rank.getD j 0)

/-- Python list read `l[i]` index resolution: an index in `[0, len)` is
used as is, a negative index in `[-len, 0)` aliases `len + i`, and
anything else raises `IndexError` (modelled as `none`). -/
def pyIdx (len : Nat) (i : Int) : Option Nat :=
  if 0 ≤ i ∧ i < (len : Int) then some i.toNat
  else if -(len : Int) ≤ i ∧ i < 0 then some (((len : Int) + i).toNat)
  else none

/-- Python list read `l[i]` with negative-index aliasing. -/
def pyGet (l : List Nat) (i : Int) : Option Nat :=
  (pyIdx l.length i).map (fun k => l.getD k 0)

/-- Python list write `l[i] = v` with negative-index aliasing. -/
def pySet (l : List Nat) (i : Int) (v : Nat) : Option (List Nat) :=
  (pyIdx l.length i).map (fun k => l.set k v)

/-- `UnionFind.find` under Python indexing semantics, for `node : Int`:
reads `parent[node]`, recurses on the stored value, writes the root back
to `parent[node]` and re-reads it, with `none` propagating an uncaught
`IndexError`. -/
def pyFindAux (p : List Nat) (node : Int) : Nat → Option (Nat × List Nat)
  | 0 => none
  | fuel + 1 =>
    (pyGet p node).bind (fun q =>
      if (q : Int) = node then some (q, p)
      else
        (pyFindAux p (q : Int) fuel).bind (fun rp =>
          (pySet rp.2 node rp.1).bind (fun p2 =>
            (pyGet p2 node).map (fun ret => (ret, p2)))))

/-- `find` on a parent array with Python indexing semantics. -/
def pyFind (p : List Nat) (node : Int) : Option (Nat × List Nat) :=
  pyFindAux p node (p.length + 1)

/-- Two vertices are adjacent when some edge of the list joins them, in
either orientation. -/
def adjRel (es : List Edge) (x y : Nat) : Prop :=
  ∃ e ∈ es, (e.2.1 = x ∧ e.2.2 = y) ∨ (e.2.1 = y ∧ e.2.2 = x)

/-- Graph connectivity: the reflexive-transitive closure of adjacency. -/
def connectedIn (es : List Edge) (x y : Nat) : Prop :=
  Relation.ReflTransGen (adjRel es) x y

/-- A list of edges contains no cycle (is a forest): every edge is a
bridge, i.e. its endpoints are not connected by the remaining edges. -/
def IsForest (es : List Edge) : Prop :=
  ∀ pre e post, es = pre ++ e :: post →
    ¬ connectedIn (pre ++ post) e.2.1 e.2.2

/-- Sum of the weights of a list of edges. -/
def weightSum (es : List Edge) : Int := (es.map (fun e => e.1)).sum

/-- Weight comparison between edges. -/
def wle (a b : Edge) : Prop := a.1 ≤ b.1

/-- The edges of weight at most `t`. -/
def filterLe (t : Int) (es : List Edge) : List Edge :=
  es.filter (fun f => decide (f.1 ≤ t))

/-- All edge endpoints lie in `[0, n)`. -/
def EdgesOk (n : Nat) (es : List Edge) : Prop :=
  ∀ e ∈ es, e.2.1 < n ∧ e.2.2 < n

/-- Stable insertion into a weight-sorted list: the new edge is placed
before the first edge whose weight is not strictly smaller. -/
def insertEdge (e : Edge) : List Edge → List Edge
  | [] => [e]
  | f :: rest => if f.1 < e.1 then f :: insertEdge e rest else e :: f :: rest

/-- Stable insertion sort on the weight component: the observable effect
of the in-place `edges.sort(key=lambda x: x[0])` of the source (Python
`list.sort` is a stable sort; a stable weight-sort of a list is unique,
so this models its result exactly). -/
def sortEdges : List Edge → List Edge
  | [] => []
  | e :: rest => insertEdge e (sortEdges rest)

/-- The greedy loop of `kruskal_mst`: for each edge `(w, u, v)` in order,
if `find(u) != find(v)` append the edge, add its weight, and `union(u, v)`,
returning early once `n - 1` edges are accepted. -/
def kruskalFold (n : Nat) :
    List Edge → UnionFind → List Edge → Int → List Edge × Int
  | [], _, T, tw => (T, tw)
  | e :: rest, uf, T, tw =>
    let fu := uf.find e.2.1
    let fv := fu.2.find e.2.2
    if fu.1 ≠ fv.1 then
      let T2 := T ++ [e]
      let tw2 := tw + e.1
      let res := fv.2.union e.2.1 e.2.2
      if (T2.length : Int) = (n : Int) - 1 then (T2, tw2)
      else kruskalFold n rest res.2 T2 tw2
    else kruskalFold n rest fv.2 T tw

/-- `kruskal_mst(n, edges)` of the source: sort the edges by weight
(stable), then run the greedy loop on a fresh `UnionFind(n)` starting
from an empty tree and zero accumulated weight. -/
def kruskal_mst (n : Nat) (edges : List Edge) : List Edge × Int :=
  kruskalFold n (sortEdges edges) (UnionFind.init n) [] 0

/-- Folding `union` over the endpoint pairs of an edge list. -/
def ufOfEdges (n : Nat) (es : List Edge) : UnionFind :=
  es.foldl (fun uf e => (uf.union e.2.1 e.2.2).2) (UnionFind.init n)

/-- Number of connected components of the graph on `[0, n)`: the number
of distinct union-find roots after merging along every edge. -/
def numComponents (n : Nat) (es : List Edge) : Nat :=
  (ufOfEdges n es).setsCount

/-- A spanning forest of the graph `es` on vertices `[0, n)`: a forest of
edges of `es` that connects everything `es` connects. -/
def SpanningForest (n : Nat) (es S : List Edge) : Prop :=
  (∀ e ∈ S, e ∈ es) ∧ IsForest S ∧
    ∀ x y, x < n → y < n → connectedIn es x y → connectedIn S x y

/-- Executing a list of `union` calls, accumulating the argument pairs of
the calls that returned `True`. -/
def runOpsAux : List (Nat × Nat) → UnionFind → List (Nat × Nat) →
    UnionFind × List (Nat × Nat)
  | [], uf, acc => (uf, acc)
  | op :: rest, uf, acc =>
    let r := uf.union op.1 op.2
    runOpsAux rest r.2 (if r.1 then acc ++ [op] else acc)

/-- Executing a list of `union` calls on a fresh `UnionFind(n)`. -/
def runOps (n : Nat) (ops : List (Nat × Nat)) : UnionFind × List (Nat × Nat) :=
  runOpsAux ops (UnionFind.init n) []

/-- Loop invariant of the greedy fold: `uf` is well formed over `n`
nodes, the accepted edges `T` are drawn from the processed edges `procd`,
the accumulator equals the weight of `T`, `T` is a forest, the union-find
partition is exactly `T`-connectivity, every processed edge has its
endpoints connected by accepted edges of no larger weight, and the number
of sets complements the number of accepted edges. -/
def KInv (n : Nat) (procd T : List Edge) (uf : UnionFind) (tw : Int) : Prop :=
  uf.WF ∧ uf.parent.length = n ∧ T.Sublist procd ∧ tw = weightSum T ∧
  IsForest T ∧
  (∀ x y, x < n → y < n → (uf.rootN x = uf.rootN y ↔ connectedIn T x y)) ∧
  (∀ e ∈ procd, connectedIn (filterLe e.1 T) e.2.1 e.2.2) ∧
  T.length + uf.setsCount = n

namespace UnionFind

theorem init_parent (n : Nat) : (init n).parent = List.range n := rfl

theorem init_rank (n : Nat) : (init n).rank = List.replicate n 0 := rfl

theorem init_parent_length (n : Nat) : (init n).parent.length = n := by
  simp [init]

end UnionFind

theorem getD_range {n i d : Nat} (h : i < n) : (List.range n).getD i d = i := by
  simp [List.getD_eq_getElem?_getD, List.getElem?_range h]

theorem getD_range_self {n i : Nat} : (List.range n).getD i i = i := by
  rcases Nat.lt_or_ge i n with h | h
  · exact getD_range h
  · have : (List.range n)[i]? = none := List.getElem?_eq_none (by simpa using h)
    rw [List.getD_eq_getElem?_getD, this]; rfl

theorem getD_set_self {l : List Nat} {i v d : Nat} (h : i < l.length) :
    (l.set i v).getD i d = v := by
  simp [List.getD_eq_getElem?_getD, List.getElem?_set_self h]

theorem getD_set_ne {l : List Nat} {i j v d : Nat} (h : i ≠ j) :
    (l.set i v).getD j d = l.getD j d := by
  simp [List.getD_eq_getElem?_getD, List.getElem?_set_ne h]

theorem UnionFind.init_wf (n : Nat) : (UnionFind.init n).WF := by
  refine ⟨by simp [UnionFind.init], ?_, ?_⟩
  · intro i hi
    simp only [UnionFind.init_parent, List.length_range] at hi ⊢
    rw [getD_range hi]; exact hi
  · intro i hi hne
    simp only [UnionFind.init_parent] at hne
    exact absurd getD_range_self hne

theorem getD_out {l : List Nat} {i d : Nat} (h : l.length ≤ i) : l.getD i d = d := by
  have : l[i]? = none := List.getElem?_eq_none h
  rw [List.getD_eq_getElem?_getD, this]; rfl

theorem rootAux_succ (p : List Nat) (x fuel : Nat) :
    rootAux p x (fuel + 1) =
      if p.getD x x = x then x else rootAux p (p.getD x x) fuel := rfl

theorem rootAux_of_isRoot {p : List Nat} {r : Nat} (h : isRoot p r) :
    ∀ fuel, rootAux p r fuel = r := by
  intro fuel
  cases fuel with
  | zero => rfl
  | succ f => rw [rootAux_succ, if_pos (show p.getD r r = r from h)]

theorem rootAux_step {p : List Nat} {x : Nat} (h : p.getD x x ≠ x) (fuel : Nat) :
    rootAux p x (fuel + 1) = rootAux p (p.getD x x) fuel := by
  rw [rootAux_succ, if_neg h]

theorem rootAux_fuel_mono {p : List Nat} :
    ∀ fuel x, isRoot p (rootAux p x fuel) →
      ∀ g, fuel ≤ g → rootAux p x g = rootAux p x fuel := by
  intro fuel
  induction fuel with
  | zero =>
    intro x hr g _
    exact rootAux_of_isRoot hr g
  | succ f ih =>
    intro x hr g hg
    by_cases hx : p.getD x x = x
    · have hroot : isRoot p x := hx
      rw [rootAux_of_isRoot hroot, rootAux_of_isRoot hroot]
    · obtain ⟨g', rfl⟩ : ∃ g', g = g' + 1 := ⟨g - 1, by omega⟩
      rw [rootAux_step hx, rootAux_step hx]
      rw [rootAux_step hx] at hr
      exact ih _ hr g' (by omega)

theorem rootAux_lt {p : List Nat}
    (hlt : ∀ i, i < p.length → p.getD i i < p.length) :
    ∀ fuel x, x < p.length → rootAux p x fuel < p.length := by
  intro fuel
  induction fuel with
  | zero => intro x hx; exact hx
  | succ f ih =>
    intro x hx
    by_cases h : p.getD x x = x
    · rw [rootAux_succ, if_pos h]; exact hx
    · rw [rootAux_step h]; exact ih _ (hlt x hx)

namespace UnionFind

variable {uf : UnionFind}

theorem wf_rooted_aux (h : uf.WF) :
    ∀ fuel i, i < uf.parent.length → (uf.rankAbove i).card ≤ fuel →
      isRoot uf.parent (rootAux uf.parent i fuel) := by
  intro fuel
  induction fuel with
  | zero =>
    intro i hi hcard
    exfalso
    have : i ∈ uf.rankAbove i := by
      simp [rankAbove, Finset.mem_filter, Finset.mem_range, hi]
    have := Finset.card_pos.mpr ⟨i, this⟩
    omega
  | succ f ih =>
    intro i hi hcard
    by_cases hroot : uf.parent.getD i i = i
    · rw [rootAux_succ, if_pos hroot]; exact hroot
    · rw [rootAux_step hroot]
      have hq : uf.parent.getD i i < uf.parent.length := h.parent_lt i hi
      have hrk : uf.rank.getD i 0 < uf.rank.getD (uf.parent.getD i i) 0 :=
        h.rank_chain i hi hroot
      refine ih _ hq ?_
      have hss : uf.rankAbove (uf.parent.getD i i) ⊂ uf.rankAbove i := by
        constructor
        · intro j hj
          simp only [rankAbove, Finset.mem_filter, Finset.mem_range] at hj ⊢
          exact ⟨hj.1, le_trans (le_of_lt hrk) hj.2⟩
        · intro hsub
          have : i ∈ uf.rankAbove i := by
            simp [rankAbove, Finset.mem_filter, Finset.mem_range, hi]
          have := hsub this
          simp only [rankAbove, Finset.mem_filter, Finset.mem_range] at this
          omega
      have := Finset.card_lt_card hss
      omega

theorem wf_rooted (h : uf.WF) {i : Nat} (hi : i < uf.parent.length) :
    isRoot uf.parent (rootAux uf.parent i uf.parent.length) := by
  refine wf_rooted_aux h _ i hi ?_
  calc (uf.rankAbove i).card ≤ (Finset.range uf.parent.length).card :=
        Finset.card_le_card (Finset.filter_subset _ _)
    _ = uf.parent.length := Finset.card_range _

theorem rootN_isRoot (h : uf.WF) {x : Nat} (hx : x < uf.parent.length) :
    isRoot uf.parent (uf.rootN x) :=
  wf_rooted h hx

theorem rootN_lt (h : uf.WF) {x : Nat} (hx : x < uf.parent.length) :
    uf.rootN x < uf.parent.length :=
  rootAux_lt h.parent_lt _ x hx

theorem rootN_of_isRoot {x : Nat} (hx : isRoot uf.parent x) : uf.rootN x = x :=
  rootAux_of_isRoot hx _

theorem rootN_out {x : Nat} (hx : uf.parent.length ≤ x) : uf.rootN x = x :=
  rootN_of_isRoot (getD_out hx)

theorem rootN_idem (h : uf.WF) {x : Nat} (hx : x < uf.parent.length) :
    uf.rootN (uf.rootN x) = uf.rootN x :=
  rootN_of_isRoot (rootN_isRoot h hx)

theorem rootN_fuel (h : uf.WF) {x : Nat} (hx : x < uf.parent.length)
    {fuel : Nat} (hr : isRoot uf.parent (rootAux uf.parent x fuel)) :
    rootAux uf.parent x fuel = uf.rootN x := by
  rcases Nat.le_total fuel uf.parent.length with hle | hle
  · exact (rootAux_fuel_mono fuel x hr _ hle).symm
  · exact rootAux_fuel_mono _ x (wf_rooted h hx) fuel hle

theorem rootN_step (h : uf.WF) {x : Nat} (hx : x < uf.parent.length)
    (hne : uf.parent.getD x x ≠ x) :
    uf.rootN (uf.parent.getD x x) = uf.rootN x := by
  obtain ⟨m, hm⟩ : ∃ m, uf.parent.length = m + 1 := ⟨uf.parent.length - 1, by omega⟩
  have h1 : uf.rootN x = rootAux uf.parent (uf.parent.getD x x) m := by
    rw [rootN, hm, rootAux_step hne]
  have hr : isRoot uf.parent (rootAux uf.parent (uf.parent.getD x x) m) := by
    rw [← h1]; exact rootN_isRoot h hx
  have h2 : rootAux uf.parent (uf.parent.getD x x) m = uf.rootN (uf.parent.getD x x) :=
    rootN_fuel h (h.parent_lt x hx) hr
  rw [← h2, ← h1]

theorem rank_lt_rootN_aux (h : uf.WF) :
    ∀ fuel y, y < uf.parent.length → ¬ isRoot uf.parent y →
      isRoot uf.parent (rootAux uf.parent y fuel) →
      uf.rank.getD y 0 < uf.rank.getD (rootAux uf.parent y fuel) 0 := by
  intro fuel
  induction fuel with
  | zero => intro y _ hy hr; exact absurd hr hy
  | succ f ih =>
    intro y hy hne hr
    have hstep : uf.parent.getD y y ≠ y := hne
    rw [rootAux_step hstep] at hr ⊢
    have hq : uf.parent.getD y y < uf.parent.length := h.parent_lt y hy
    have hrk : uf.rank.getD y 0 < uf.rank.getD (uf.parent.getD y y) 0 :=
      h.rank_chain y hy hstep
    by_cases hqr : isRoot uf.parent (uf.parent.getD y y)
    · rw [rootAux_of_isRoot hqr]; exact hrk
    · exact lt_trans hrk (ih _ hq hqr hr)

theorem rank_lt_rootN (h : uf.WF) {y : Nat} (hy : y < uf.parent.length)
    (hne : ¬ isRoot uf.parent y) :
    uf.rank.getD y 0 < uf.rank.getD (uf.rootN y) 0 :=
  rank_lt_rootN_aux h _ y hy hne (wf_rooted h hy)

end UnionFind

theorem findAux_succ (p : List Nat) (x fuel : Nat) :
    findAux p x (fuel + 1) =
      if p.getD x x = x then (x, p)
      else ((findAux p (p.getD x x) fuel).1,
        (findAux p (p.getD x x) fuel).2.set x (findAux p (p.getD x x) fuel).1) := by
  show (if p.getD x x = x then (x, p) else _) = _
  by_cases h : p.getD x x = x <;> simp [h]

theorem pathAux_succ (p : List Nat) (x fuel : Nat) :
    pathAux p x (fuel + 1) =
      if p.getD x x = x then [] else x :: pathAux p (p.getD x x) fuel := rfl

/-- Full description of `findAux`: it returns the chased root and rewrites
exactly the visited nodes to point at that root. -/
theorem findAux_spec {p : List Nat}
    (hlt : ∀ i, i < p.length → p.getD i i < p.length) :
    ∀ fuel x, x < p.length →
      (findAux p x fuel).1 = rootAux p x fuel ∧
      (findAux p x fuel).2.length = p.length ∧
      ∀ i, (findAux p x fuel).2.getD i i =
        if i ∈ pathAux p x fuel then rootAux p x fuel else p.getD i i := by
  intro fuel
  induction fuel with
  | zero =>
    intro x _
    refine ⟨rfl, rfl, ?_⟩
    intro i
    simp [findAux, pathAux, rootAux]
  | succ f ih =>
    intro x hx
    by_cases h : p.getD x x = x
    · rw [findAux_succ, pathAux_succ, rootAux_succ, if_pos h, if_pos h]
      refine ⟨rfl, rfl, ?_⟩
      intro i
      rw [if_pos h]
      simp
    · rw [findAux_succ, pathAux_succ, rootAux_succ, if_neg h, if_neg h, if_neg h]
      obtain ⟨h1, h2, h3⟩ := ih (p.getD x x) (hlt x hx)
      refine ⟨by rw [h1], by rw [List.length_set, h2], ?_⟩
      intro i
      by_cases hi : i = x
      · subst hi
        rw [getD_set_self (by rw [h2]; exact hx), h1]
        simp
      · rw [getD_set_ne (fun hh => hi hh.symm), h3 i]
        have : (i ∈ x :: pathAux p (p.getD x x) f) ↔ i ∈ pathAux p (p.getD x x) f := by
          simp [List.mem_cons, hi]
        by_cases hmem : i ∈ pathAux p (p.getD x x) f
        · rw [if_pos hmem, if_pos (this.mpr hmem)]
        · rw [if_neg hmem, if_neg (fun hh => hmem (this.mp hh))]

namespace UnionFind

variable {uf : UnionFind}

theorem pathAux_mem_spec (h : uf.WF) :
    ∀ fuel x, x < uf.parent.length →
      ∀ y ∈ pathAux uf.parent x fuel,
        uf.rootN y = uf.rootN x ∧ y < uf.parent.length ∧
          uf.parent.getD y y ≠ y := by
  intro fuel
  induction fuel with
  | zero => intro x _ y hy; simp [pathAux] at hy
  | succ f ih =>
    intro x hx y hy
    by_cases hr : uf.parent.getD x x = x
    · rw [pathAux_succ, if_pos hr] at hy; simp at hy
    · rw [pathAux_succ, if_neg hr] at hy
      rcases List.mem_cons.mp hy with rfl | hy'
      · exact ⟨rfl, hx, hr⟩
      · obtain ⟨h1, h2, h3⟩ := ih _ (h.parent_lt x hx) y hy'
        exact ⟨h1.trans (rootN_step h hx hr), h2, h3⟩

theorem rootN_notMem_path (h : uf.WF) {x : Nat} (hx : x < uf.parent.length)
    {fuel : Nat} : uf.rootN x ∉ pathAux uf.parent x fuel := by
  intro hmem
  obtain ⟨-, -, h3⟩ := pathAux_mem_spec h fuel x hx _ hmem
  exact h3 (rootN_isRoot h hx)

/-- Parent array after `find x`. -/
theorem find_parent_getD (h : uf.WF) {x : Nat} (hx : x < uf.parent.length) (i : Nat) :
    (uf.find x).2.parent.getD i i =
      if i ∈ uf.findPath x then uf.rootN x else uf.parent.getD i i := by
  obtain ⟨-, -, h3⟩ := findAux_spec h.parent_lt uf.parent.length x hx
  exact h3 i

theorem find_fst (h : uf.WF) {x : Nat} (hx : x < uf.parent.length) :
    (uf.find x).1 = uf.rootN x :=
  (findAux_spec h.parent_lt uf.parent.length x hx).1

theorem find_parent_length (h : uf.WF) {x : Nat} (hx : x < uf.parent.length) :
    (uf.find x).2.parent.length = uf.parent.length :=
  (findAux_spec h.parent_lt uf.parent.length x hx).2.1

theorem find_rank (x : Nat) : (uf.find x).2.rank = uf.rank := rfl

/-- Path compression does not change any root: chasing parents in the
compressed array gives the same result for every node. -/
theorem find_rootAux_eq (h : uf.WF) {x : Nat} (hx : x < uf.parent.length) :
    ∀ fuel y, y < uf.parent.length →
      isRoot uf.parent (rootAux uf.parent y fuel) →
      rootAux (uf.find x).2.parent y fuel = rootAux uf.parent y fuel := by
  have hpl := find_parent_length h hx
  have hgetD := find_parent_getD h hx
  have hrootroot : isRoot (uf.find x).2.parent (uf.rootN x) := by
    show (uf.find x).2.parent.getD (uf.rootN x) (uf.rootN x) = uf.rootN x
    rw [hgetD,
      if_neg (show uf.rootN x ∉ uf.findPath x from rootN_notMem_path h hx)]
    exact rootN_isRoot h hx
  intro fuel
  induction fuel with
  | zero => intro y _ _; rfl
  | succ f ih =>
    intro y hy hr
    by_cases hmem : y ∈ uf.findPath x
    · obtain ⟨hyr, -, hyne⟩ := pathAux_mem_spec h _ x hx y hmem
      have hy' : (uf.find x).2.parent.getD y y = uf.rootN x := by
        rw [hgetD, if_pos hmem]
      have hne : uf.rootN x ≠ y := by
        intro hcon
        apply hyne
        have hroot := rootN_isRoot h hx
        rw [hcon] at hroot
        exact hroot
      rw [rootAux_succ, hy', if_neg hne, rootAux_of_isRoot hrootroot]
      have : rootAux uf.parent y (f + 1) = uf.rootN y := rootN_fuel h hy hr
      rw [this, hyr]
    · have hy' : (uf.find x).2.parent.getD y y = uf.parent.getD y y := by
        rw [hgetD, if_neg hmem]
      by_cases hroot : uf.parent.getD y y = y
      · rw [rootAux_succ, rootAux_succ, hy', if_pos hroot, if_pos hroot]
      · rw [rootAux_succ, rootAux_succ, hy', if_neg hroot, if_neg hroot]
        refine ih _ (h.parent_lt y hy) ?_
        rw [← rootAux_step hroot]
        exact hr

theorem find_rootN_eq (h : uf.WF) {x : Nat} (hx : x < uf.parent.length)
    {y : Nat} (hy : y < uf.parent.length) :
    (uf.find x).2.rootN y = uf.rootN y := by
  show rootAux (uf.find x).2.parent y (uf.find x).2.parent.length = _
  rw [find_parent_length h hx]
  exact find_rootAux_eq h hx _ y hy (wf_rooted h hy)

theorem find_wf (h : uf.WF) {x : Nat} (hx : x < uf.parent.length) :
    (uf.find x).2.WF := by
  have hpl := find_parent_length h hx
  have hgetD := find_parent_getD h hx
  refine ⟨?_, ?_, ?_⟩
  · rw [find_rank, hpl]; exact h.rank_len
  · intro i hi
    rw [hpl] at hi ⊢
    rw [hgetD i]
    by_cases hmem : i ∈ uf.findPath x
    · rw [if_pos hmem]; exact rootN_lt h hx
    · rw [if_neg hmem]; exact h.parent_lt i hi
  · intro i hi hne
    rw [hpl] at hi
    rw [find_rank] at *
    rw [hgetD i] at hne ⊢
    by_cases hmem : i ∈ uf.findPath x
    · rw [if_pos hmem] at hne ⊢
      obtain ⟨hyr, -, hyne⟩ := pathAux_mem_spec h _ x hx i hmem
      have : uf.rank.getD i 0 < uf.rank.getD (uf.rootN i) 0 :=
        rank_lt_rootN h hi hyne
      rw [hyr] at this
      exact this
    · rw [if_neg hmem] at hne ⊢
      exact h.rank_chain i hi hne

end UnionFind

/-- Attaching root `s` under root `d` redirects exactly the sets rooted at
`s`; every other root assignment is unchanged. -/
theorem set_root_rootAux {p : List Nat} {s d : Nat}
    (hlt : ∀ i, i < p.length → p.getD i i < p.length)
    (hs : isRoot p s) (hd : isRoot p d) (hsd : s ≠ d) (hsn : s < p.length) :
    ∀ fuel x, x < p.length → isRoot p (rootAux p x fuel) →
      rootAux (p.set s d) x (fuel + 1) =
        if rootAux p x fuel = s then d else rootAux p x fuel := by
  have hset : ∀ i, (p.set s d).getD i i = if i = s then d else p.getD i i := by
    intro i
    by_cases hi : i = s
    · subst hi; rw [if_pos rfl, getD_set_self hsn]
    · rw [if_neg hi, getD_set_ne (fun hh => hi hh.symm)]
  have hdroot : isRoot (p.set s d) d := by
    show (p.set s d).getD d d = d
    rw [hset, if_neg (fun hh : d = s => hsd hh.symm)]
    exact hd
  have hbase : ∀ x, isRoot p x → ∀ f,
      rootAux (p.set s d) x (f + 1) = if x = s then d else x := by
    intro x hx f
    rw [rootAux_succ, hset x]
    by_cases hxs : x = s
    · subst hxs
      rw [if_pos rfl, if_pos rfl, if_neg (fun hh : d = x => hsd hh.symm)]
      exact rootAux_of_isRoot hdroot f
    · rw [if_neg hxs, if_neg hxs, if_pos (show p.getD x x = x from hx)]
  intro fuel
  induction fuel with
  | zero =>
    intro x _ hr
    exact hbase x hr 0
  | succ f ih =>
    intro x hx hr
    by_cases hroot : p.getD x x = x
    · rw [rootAux_of_isRoot hroot (f + 1)]
      exact hbase x hroot (f + 1)
    · have hxs : x ≠ s := fun hh => hroot (hh ▸ hs)
      have hstep : (p.set s d).getD x x = p.getD x x := by
        rw [hset, if_neg hxs]
      rw [rootAux_succ, hstep, if_neg hroot, rootAux_step hroot]
      exact ih (p.getD x x) (hlt x hx)
        (by rw [← rootAux_step hroot]; exact hr)

namespace UnionFind

variable {uf : UnionFind}

theorem isRoot_of_rootN_eq (h : uf.WF) {x : Nat} (hx : x < uf.parent.length)
    (he : uf.rootN x = x) : isRoot uf.parent x := by
  by_contra hne
  have := rank_lt_rootN h hx hne
  rw [he] at this
  omega

theorem union_unfold (uf : UnionFind) (a b : Nat) :
    uf.union a b =
      if (uf.find a).1 = ((uf.find a).2.find b).1 then
        (false, ((uf.find a).2.find b).2)
      else if ((uf.find a).2.find b).2.rank.getD (uf.find a).1 0 <
          ((uf.find a).2.find b).2.rank.getD ((uf.find a).2.find b).1 0 then
        (true, ⟨((uf.find a).2.find b).2.parent.set (uf.find a).1
          ((uf.find a).2.find b).1, ((uf.find a).2.find b).2.rank⟩)
      else if ((uf.find a).2.find b).2.rank.getD ((uf.find a).2.find b).1 0 <
          ((uf.find a).2.find b).2.rank.getD (uf.find a).1 0 then
        (true, ⟨((uf.find a).2.find b).2.parent.set ((uf.find a).2.find b).1
          (uf.find a).1, ((uf.find a).2.find b).2.rank⟩)
      else
        (true, ⟨((uf.find a).2.find b).2.parent.set ((uf.find a).2.find b).1
          (uf.find a).1, ((uf.find a).2.find b).2.rank.set (uf.find a).1
            (((uf.find a).2.find b).2.rank.getD (uf.find a).1 0 + 1)⟩) := rfl

/-- Attaching root `s` under root `d` with a suitable new rank array gives
a well-formed state whose root assignment redirects the class of `s` to
`d` and leaves every other class untouched. -/
theorem attach_spec {w : UnionFind} (hw : w.WF) {s d : Nat}
    (hs : isRoot w.parent s) (hd : isRoot w.parent d) (hsd : s ≠ d)
    (hsn : s < w.parent.length) (hdn : d < w.parent.length)
    {rk : List Nat} (hrklen : rk.length = w.parent.length)
    (hchain : ∀ i, i < w.parent.length → (w.parent.set s d).getD i i ≠ i →
      rk.getD i 0 < rk.getD ((w.parent.set s d).getD i i) 0) :
    (UnionFind.mk (w.parent.set s d) rk).WF ∧
    (UnionFind.mk (w.parent.set s d) rk).parent.length = w.parent.length ∧
    ∀ x, x < w.parent.length →
      (UnionFind.mk (w.parent.set s d) rk).rootN x =
        if w.rootN x = s then d else w.rootN x := by
  have hset : ∀ i, (w.parent.set s d).getD i i =
      if i = s then d else w.parent.getD i i := by
    intro i
    by_cases hi : i = s
    · subst hi; rw [if_pos rfl, getD_set_self hsn]
    · rw [if_neg hi, getD_set_ne (fun hh => hi hh.symm)]
  have hlen : (w.parent.set s d).length = w.parent.length := by
    simp
  have hwf : (UnionFind.mk (w.parent.set s d) rk).WF := by
    refine ⟨?_, ?_, ?_⟩
    · show rk.length = (w.parent.set s d).length
      rw [hlen]; exact hrklen
    · intro i hi
      show (w.parent.set s d).getD i i < (w.parent.set s d).length
      rw [hlen] at hi ⊢
      rw [hset i]
      by_cases his : i = s
      · rw [if_pos his]; exact hdn
      · rw [if_neg his]; exact hw.parent_lt i hi
    · intro i hi hne
      show rk.getD i 0 < rk.getD ((w.parent.set s d).getD i i) 0
      rw [hlen] at hi
      exact hchain i hi hne
  refine ⟨hwf, hlen, ?_⟩
  intro x hx
  have hform := set_root_rootAux hw.parent_lt hs hd hsd hsn
    w.parent.length x hx (wf_rooted hw hx)
  have hrooted : isRoot (w.parent.set s d)
      (rootAux (w.parent.set s d) x (w.parent.set s d).length) := by
    have := wf_rooted hwf (show x < (w.parent.set s d).length by rw [hlen]; exact hx)
    exact this
  have hmono := rootAux_fuel_mono (w.parent.set s d).length x hrooted
    (w.parent.length + 1) (by rw [hlen]; omega)
  show rootAux (w.parent.set s d) x (w.parent.set s d).length = _
  rw [← hmono, hform]
  rfl

theorem union_false_spec (h : uf.WF) {a b : Nat}
    (ha : a < uf.parent.length) (hb : b < uf.parent.length)
    (heq : uf.rootN a = uf.rootN b) :
    (uf.union a b).1 = false ∧ (uf.union a b).2.WF ∧
      (uf.union a b).2.parent.length = uf.parent.length ∧
      (uf.union a b).2.rank = uf.rank ∧
      ∀ x, x < uf.parent.length → (uf.union a b).2.rootN x = uf.rootN x := by
  have h1 : (uf.find a).1 = uf.rootN a := find_fst h ha
  have hw1 : (uf.find a).2.WF := find_wf h ha
  have hl1 : (uf.find a).2.parent.length = uf.parent.length :=
    find_parent_length h ha
  have hb1 : b < (uf.find a).2.parent.length := by rw [hl1]; exact hb
  have h2 : ((uf.find a).2.find b).1 = uf.rootN b := by
    rw [find_fst hw1 hb1, find_rootN_eq h ha hb]
  have hw2 : ((uf.find a).2.find b).2.WF := find_wf hw1 hb1
  have hl2 : ((uf.find a).2.find b).2.parent.length = uf.parent.length := by
    rw [find_parent_length hw1 hb1, hl1]
  have hroots2 : ∀ x, x < uf.parent.length →
      ((uf.find a).2.find b).2.rootN x = uf.rootN x := by
    intro x hx
    rw [find_rootN_eq hw1 hb1 (by rw [hl1]; exact hx), find_rootN_eq h ha hx]
  have hcond : (uf.find a).1 = ((uf.find a).2.find b).1 := by
    rw [h1, h2, heq]
  rw [union_unfold, if_pos hcond]
  exact ⟨rfl, hw2, hl2, rfl, hroots2⟩

end UnionFind

namespace UnionFind

variable {uf : UnionFind}

theorem union_true_spec (h : uf.WF) {a b : Nat}
    (ha : a < uf.parent.length) (hb : b < uf.parent.length)
    (hne : uf.rootN a ≠ uf.rootN b) :
    ∃ s d, ((s = uf.rootN a ∧ d = uf.rootN b) ∨
        (s = uf.rootN b ∧ d = uf.rootN a)) ∧
      (uf.union a b).1 = true ∧ (uf.union a b).2.WF ∧
      (uf.union a b).2.parent.length = uf.parent.length ∧
      ∀ x, x < uf.parent.length →
        (uf.union a b).2.rootN x = if uf.rootN x = s then d else uf.rootN x := by
  have h1 : (uf.find a).1 = uf.rootN a := find_fst h ha
  have hw1 : (uf.find a).2.WF := find_wf h ha
  have hl1 : (uf.find a).2.parent.length = uf.parent.length :=
    find_parent_length h ha
  have hb1 : b < (uf.find a).2.parent.length := by rw [hl1]; exact hb
  have h2 : ((uf.find a).2.find b).1 = uf.rootN b := by
    rw [find_fst hw1 hb1, find_rootN_eq h ha hb]
  have hw2 : ((uf.find a).2.find b).2.WF := find_wf hw1 hb1
  have hl2 : ((uf.find a).2.find b).2.parent.length = uf.parent.length := by
    rw [find_parent_length hw1 hb1, hl1]
  have hroots2 : ∀ x, x < uf.parent.length →
      ((uf.find a).2.find b).2.rootN x = uf.rootN x := by
    intro x hx
    rw [find_rootN_eq hw1 hb1 (by rw [hl1]; exact hx), find_rootN_eq h ha hx]
  have hrk2 : ((uf.find a).2.find b).2.rank = uf.rank := rfl
  have hcond : (uf.find a).1 ≠ ((uf.find a).2.find b).1 := by
    rw [h1, h2]; exact hne
  have hra : uf.rootN a < uf.parent.length := rootN_lt h ha
  have hrb : uf.rootN b < uf.parent.length := rootN_lt h hb
  have hisa : isRoot ((uf.find a).2.find b).2.parent (uf.rootN a) := by
    refine isRoot_of_rootN_eq hw2 (by rw [hl2]; exact hra) ?_
    rw [hroots2 _ hra]; exact rootN_idem h ha
  have hisb : isRoot ((uf.find a).2.find b).2.parent (uf.rootN b) := by
    refine isRoot_of_rootN_eq hw2 (by rw [hl2]; exact hrb) ?_
    rw [hroots2 _ hrb]; exact rootN_idem h hb
  have hrklen : uf.rank.length = ((uf.find a).2.find b).2.parent.length := by
    rw [hl2]; exact h.rank_len
  have hchain2 : ∀ i, i < ((uf.find a).2.find b).2.parent.length →
      ((uf.find a).2.find b).2.parent.getD i i ≠ i →
      uf.rank.getD i 0 <
        uf.rank.getD (((uf.find a).2.find b).2.parent.getD i i) 0 := by
    intro i hi hne'
    have := hw2.rank_chain i hi hne'
    rw [hrk2] at this
    exact this
  by_cases hc1 : uf.rank.getD (uf.rootN a) 0 < uf.rank.getD (uf.rootN b) 0
  · -- rank of root_a smaller: attach root_a under root_b
    have hc1' : ((uf.find a).2.find b).2.rank.getD (uf.find a).1 0 <
        ((uf.find a).2.find b).2.rank.getD ((uf.find a).2.find b).1 0 := by
      rw [hrk2, h1, h2]; exact hc1
    have hu : uf.union a b = (true,
        UnionFind.mk (((uf.find a).2.find b).2.parent.set
          (uf.rootN a) (uf.rootN b)) uf.rank) := by
      rw [union_unfold, if_neg hcond, if_pos hc1', h1, h2, hrk2]
    have hchain : ∀ i, i < ((uf.find a).2.find b).2.parent.length →
        ((((uf.find a).2.find b).2.parent.set (uf.rootN a) (uf.rootN b)).getD i i ≠ i) →
        uf.rank.getD i 0 <
          uf.rank.getD
            ((((uf.find a).2.find b).2.parent.set (uf.rootN a) (uf.rootN b)).getD i i) 0 := by
      intro i hi hne'
      by_cases his : i = uf.rootN a
      · subst his
        rw [getD_set_self (by rw [hl2]; exact hra)] at hne' ⊢
        exact hc1
      · rw [getD_set_ne (fun hh => his hh.symm)] at hne' ⊢
        exact hchain2 i hi hne'
    obtain ⟨hwf, hlen, hform⟩ := attach_spec hw2 hisa hisb hne
      (by rw [hl2]; exact hra) (by rw [hl2]; exact hrb) hrklen hchain
    refine ⟨uf.rootN a, uf.rootN b, Or.inl ⟨rfl, rfl⟩, ?_, ?_, ?_, ?_⟩
    · rw [hu]
    · rw [hu]; exact hwf
    · rw [hu]; rw [hlen, hl2]
    · intro x hx
      rw [hu]
      have := hform x (by rw [hl2]; exact hx)
      rw [hroots2 x hx] at this
      exact this
  · by_cases hc2 : uf.rank.getD (uf.rootN b) 0 < uf.rank.getD (uf.rootN a) 0
    · -- rank of root_b smaller: attach root_b under root_a
      have hc1' : ¬ (((uf.find a).2.find b).2.rank.getD (uf.find a).1 0 <
          ((uf.find a).2.find b).2.rank.getD ((uf.find a).2.find b).1 0) := by
        rw [hrk2, h1, h2]; exact hc1
      have hc2' : ((uf.find a).2.find b).2.rank.getD ((uf.find a).2.find b).1 0 <
          ((uf.find a).2.find b).2.rank.getD (uf.find a).1 0 := by
        rw [hrk2, h1, h2]; exact hc2
      have hu : uf.union a b = (true,
          UnionFind.mk (((uf.find a).2.find b).2.parent.set
            (uf.rootN b) (uf.rootN a)) uf.rank) := by
        rw [union_unfold, if_neg hcond, if_neg hc1', if_pos hc2', h1, h2, hrk2]
      have hchain : ∀ i, i < ((uf.find a).2.find b).2.parent.length →
          ((((uf.find a).2.find b).2.parent.set (uf.rootN b) (uf.rootN a)).getD i i ≠ i) →
          uf.rank.getD i 0 <
            uf.rank.getD
              ((((uf.find a).2.find b).2.parent.set (uf.rootN b) (uf.rootN a)).getD i i) 0 := by
        intro i hi hne'
        by_cases his : i = uf.rootN b
        · subst his
          rw [getD_set_self (by rw [hl2]; exact hrb)] at hne' ⊢
          exact hc2
        · rw [getD_set_ne (fun hh => his hh.symm)] at hne' ⊢
          exact hchain2 i hi hne'
      obtain ⟨hwf, hlen, hform⟩ := attach_spec hw2 hisb hisa (Ne.symm hne)
        (by rw [hl2]; exact hrb) (by rw [hl2]; exact hra) hrklen hchain
      refine ⟨uf.rootN b, uf.rootN a, Or.inr ⟨rfl, rfl⟩, ?_, ?_, ?_, ?_⟩
      · rw [hu]
      · rw [hu]; exact hwf
      · rw [hu]; rw [hlen, hl2]
      · intro x hx
        rw [hu]
        have := hform x (by rw [hl2]; exact hx)
        rw [hroots2 x hx] at this
        exact this
    · -- equal ranks: attach root_b under root_a and bump the rank of root_a
      have heqrk : uf.rank.getD (uf.rootN a) 0 = uf.rank.getD (uf.rootN b) 0 := by
        omega
      have hc1' : ¬ (((uf.find a).2.find b).2.rank.getD (uf.find a).1 0 <
          ((uf.find a).2.find b).2.rank.getD ((uf.find a).2.find b).1 0) := by
        rw [hrk2, h1, h2]; exact hc1
      have hc2' : ¬ (((uf.find a).2.find b).2.rank.getD ((uf.find a).2.find b).1 0 <
          ((uf.find a).2.find b).2.rank.getD (uf.find a).1 0) := by
        rw [hrk2, h1, h2]; exact hc2
      have hu : uf.union a b = (true,
          UnionFind.mk (((uf.find a).2.find b).2.parent.set
            (uf.rootN b) (uf.rootN a))
            (uf.rank.set (uf.rootN a) (uf.rank.getD (uf.rootN a) 0 + 1))) := by
        rw [union_unfold, if_neg hcond, if_neg hc1', if_neg hc2', h1, h2, hrk2]
      have hralen : uf.rootN a < uf.rank.length := by
        rw [h.rank_len]; exact hra
      have hbump : ∀ j, uf.rank.getD j 0 ≤
          (uf.rank.set (uf.rootN a) (uf.rank.getD (uf.rootN a) 0 + 1)).getD j 0 := by
        intro j
        by_cases hj : j = uf.rootN a
        · subst hj
          rw [getD_set_self hralen]
          omega
        · rw [getD_set_ne (fun hh => hj hh.symm)]
      have hchain : ∀ i, i < ((uf.find a).2.find b).2.parent.length →
          ((((uf.find a).2.find b).2.parent.set (uf.rootN b) (uf.rootN a)).getD i i ≠ i) →
          (uf.rank.set (uf.rootN a) (uf.rank.getD (uf.rootN a) 0 + 1)).getD i 0 <
            (uf.rank.set (uf.rootN a) (uf.rank.getD (uf.rootN a) 0 + 1)).getD
              ((((uf.find a).2.find b).2.parent.set (uf.rootN b) (uf.rootN a)).getD i i) 0 := by
        intro i hi hne'
        by_cases his : i = uf.rootN b
        · subst his
          rw [getD_set_self (show uf.rootN b < ((uf.find a).2.find b).2.parent.length by
            rw [hl2]; exact hrb)] at hne' ⊢
          rw [getD_set_ne hne, getD_set_self hralen]
          omega
        · rw [getD_set_ne (fun hh => his hh.symm)] at hne' ⊢
          have hia : i ≠ uf.rootN a := by
            intro hcon
            subst hcon
            exact hne' hisa
          rw [getD_set_ne (fun hh => hia hh.symm)]
          exact lt_of_lt_of_le (hchain2 i hi hne') (hbump _)
      obtain ⟨hwf, hlen, hform⟩ := attach_spec hw2 hisb hisa (Ne.symm hne)
        (by rw [hl2]; exact hrb) (by rw [hl2]; exact hra)
        (by rw [List.length_set]; exact hrklen) hchain
      refine ⟨uf.rootN b, uf.rootN a, Or.inr ⟨rfl, rfl⟩, ?_, ?_, ?_, ?_⟩
      · rw [hu]
      · rw [hu]; exact hwf
      · rw [hu]; rw [hlen, hl2]
      · intro x hx
        rw [hu]
        have := hform x (by rw [hl2]; exact hx)
        rw [hroots2 x hx] at this
        exact this

end UnionFind

namespace UnionFind

variable {uf : UnionFind}

theorem setsCount_eq_image_rootN (h : uf.WF) :
    uf.setsCount =
      ((Finset.range uf.parent.length).image uf.rootN).card := by
  unfold setsCount
  congr 1
  apply Finset.image_congr
  intro x hx
  exact find_fst h (Finset.mem_range.mp hx)

theorem image_redirect_card {n s d : Nat} {f g : Nat → Nat}
    (hg : ∀ x, x < n → g x = if f x = s then d else f x)
    (hsd : s ≠ d)
    (hs : s ∈ (Finset.range n).image f) (hd : d ∈ (Finset.range n).image f) :
    ((Finset.range n).image g).card + 1 = ((Finset.range n).image f).card := by
  have himg : (Finset.range n).image g = ((Finset.range n).image f).erase s := by
    apply Finset.ext
    intro y
    constructor
    · intro hy
      obtain ⟨x, hx, hxy⟩ := Finset.mem_image.mp hy
      have hxn := Finset.mem_range.mp hx
      rw [hg x hxn] at hxy
      by_cases hc : f x = s
      · rw [if_pos hc] at hxy
        subst hxy
        exact Finset.mem_erase.mpr ⟨Ne.symm hsd, hd⟩
      · rw [if_neg hc] at hxy
        subst hxy
        exact Finset.mem_erase.mpr ⟨hc, Finset.mem_image.mpr ⟨x, hx, rfl⟩⟩
    · intro hy
      obtain ⟨hys, hyf⟩ := Finset.mem_erase.mp hy
      obtain ⟨x, hx, hxy⟩ := Finset.mem_image.mp hyf
      refine Finset.mem_image.mpr ⟨x, hx, ?_⟩
      rw [hg x (Finset.mem_range.mp hx), hxy, if_neg hys]
  rw [himg, Finset.card_erase_of_mem hs]
  have : 0 < ((Finset.range n).image f).card :=
    Finset.card_pos.mpr ⟨s, hs⟩
  omega

theorem union_true_setsCount (h : uf.WF) {a b : Nat}
    (ha : a < uf.parent.length) (hb : b < uf.parent.length)
    (hne : uf.rootN a ≠ uf.rootN b) :
    (uf.union a b).2.setsCount + 1 = uf.setsCount := by
  obtain ⟨s, d, hsd, -, hwf, hlen, hform⟩ := union_true_spec h ha hb hne
  rw [setsCount_eq_image_rootN hwf, setsCount_eq_image_rootN h, hlen]
  have hsne : s ≠ d := by
    rcases hsd with ⟨rfl, rfl⟩ | ⟨rfl, rfl⟩
    · exact hne
    · exact Ne.symm hne
  have hsmem : s ∈ (Finset.range uf.parent.length).image uf.rootN := by
    rcases hsd with ⟨rfl, -⟩ | ⟨rfl, -⟩
    · exact Finset.mem_image.mpr ⟨a, Finset.mem_range.mpr ha, rfl⟩
    · exact Finset.mem_image.mpr ⟨b, Finset.mem_range.mpr hb, rfl⟩
  have hdmem : d ∈ (Finset.range uf.parent.length).image uf.rootN := by
    rcases hsd with ⟨-, rfl⟩ | ⟨-, rfl⟩
    · exact Finset.mem_image.mpr ⟨b, Finset.mem_range.mpr hb, rfl⟩
    · exact Finset.mem_image.mpr ⟨a, Finset.mem_range.mpr ha, rfl⟩
  exact image_redirect_card hform hsne hsmem hdmem

theorem union_false_setsCount (h : uf.WF) {a b : Nat}
    (ha : a < uf.parent.length) (hb : b < uf.parent.length)
    (heq : uf.rootN a = uf.rootN b) :
    (uf.union a b).2.setsCount = uf.setsCount := by
  obtain ⟨-, hwf, hlen, -, hform⟩ := union_false_spec h ha hb heq
  rw [setsCount_eq_image_rootN hwf, setsCount_eq_image_rootN h, hlen]
  congr 1
  apply Finset.image_congr
  intro x hx
  exact hform x (Finset.mem_range.mp hx)

theorem setsCount_congr {v : UnionFind} (hu : uf.WF) (hv : v.WF)
    (hlen : v.parent.length = uf.parent.length)
    (hiff : ∀ x y, x < uf.parent.length → y < uf.parent.length →
      (uf.rootN x = uf.rootN y ↔ v.rootN x = v.rootN y)) :
    v.setsCount = uf.setsCount := by
  rw [setsCount_eq_image_rootN hu, setsCount_eq_image_rootN hv, hlen]
  have h1 : (Finset.range uf.parent.length).image v.rootN =
      ((Finset.range uf.parent.length).image uf.rootN).image v.rootN := by
    apply Finset.ext
    intro y
    constructor
    · intro hy
      obtain ⟨z, hz, hzy⟩ := Finset.mem_image.mp hy
      have hzn := Finset.mem_range.mp hz
      have hrn : uf.rootN z < uf.parent.length := rootN_lt hu hzn
      have hroots : uf.rootN z = uf.rootN (uf.rootN z) := (rootN_idem hu hzn).symm
      have : v.rootN z = v.rootN (uf.rootN z) := (hiff z _ hzn hrn).mp hroots
      refine Finset.mem_image.mpr ⟨uf.rootN z, ?_, ?_⟩
      · exact Finset.mem_image.mpr ⟨z, hz, rfl⟩
      · rw [← this, hzy]
    · intro hy
      obtain ⟨r, hr, hry⟩ := Finset.mem_image.mp hy
      obtain ⟨z, hz, hzr⟩ := Finset.mem_image.mp hr
      have hrn : r < uf.parent.length := by
        rw [← hzr]; exact rootN_lt hu (Finset.mem_range.mp hz)
      exact Finset.mem_image.mpr ⟨r, Finset.mem_range.mpr hrn, hry⟩
  have h2 : (Finset.range uf.parent.length).image uf.rootN =
      ((Finset.range uf.parent.length).image v.rootN).image uf.rootN := by
    apply Finset.ext
    intro y
    constructor
    · intro hy
      obtain ⟨z, hz, hzy⟩ := Finset.mem_image.mp hy
      have hzn := Finset.mem_range.mp hz
      have hrn : v.rootN z < uf.parent.length := by
        rw [← hlen]
        exact rootN_lt hv (by rw [hlen]; exact hzn)
      have hroots : v.rootN z = v.rootN (v.rootN z) :=
        (rootN_idem hv (by rw [hlen]; exact hzn)).symm
      have : uf.rootN z = uf.rootN (v.rootN z) := (hiff z _ hzn hrn).mpr hroots
      refine Finset.mem_image.mpr ⟨v.rootN z, ?_, ?_⟩
      · exact Finset.mem_image.mpr ⟨z, hz, rfl⟩
      · rw [← this, hzy]
    · intro hy
      obtain ⟨r, hr, hry⟩ := Finset.mem_image.mp hy
      obtain ⟨z, hz, hzr⟩ := Finset.mem_image.mp hr
      have hrn : r < uf.parent.length := by
        rw [← hzr, ← hlen]
        exact rootN_lt hv (by rw [hlen]; exact Finset.mem_range.mp hz)
      exact Finset.mem_image.mpr ⟨r, Finset.mem_range.mpr hrn, hry⟩
  apply le_antisymm
  · rw [h1]; exact Finset.card_image_le
  · rw [h2]; exact Finset.card_image_le

end UnionFind

theorem adjRel_symm {es : List Edge} : Symmetric (adjRel es) := by
  intro x y ⟨e, he, hor⟩
  exact ⟨e, he, hor.symm⟩

theorem connectedIn_refl {es : List Edge} (x : Nat) : connectedIn es x x :=
  Relation.ReflTransGen.refl

theorem connectedIn_symm {es : List Edge} {x y : Nat}
    (h : connectedIn es x y) : connectedIn es y x :=
  Relation.ReflTransGen.symmetric adjRel_symm h

theorem connectedIn_trans {es : List Edge} {x y z : Nat}
    (h1 : connectedIn es x y) (h2 : connectedIn es y z) :
    connectedIn es x z :=
  Relation.ReflTransGen.trans h1 h2

theorem connectedIn_mono {X Y : List Edge} (hsub : ∀ e ∈ X, e ∈ Y)
    {x y : Nat} (h : connectedIn X x y) : connectedIn Y x y := by
  refine Relation.ReflTransGen.mono ?_ h
  intro a b ⟨e, he, hor⟩
  exact ⟨e, hsub e he, hor⟩

theorem connectedIn_of_mem {es : List Edge} {e : Edge} (he : e ∈ es) :
    connectedIn es e.2.1 e.2.2 :=
  Relation.ReflTransGen.single ⟨e, he, Or.inl ⟨rfl, rfl⟩⟩

theorem connectedIn_nil {x y : Nat} : connectedIn [] x y ↔ x = y := by
  constructor
  · intro h
    induction h with
    | refl => rfl
    | tail h1 h2 ih =>
      obtain ⟨e, he, -⟩ := h2
      simp at he
  · rintro rfl
    exact connectedIn_refl x

/-- Decomposing connectivity over `es ++ [(w, u, v)]`: a connection either
avoids the extra edge or crosses it in one of the two directions. -/
theorem connectedIn_append_single {es : List Edge} {w : Int} {u v x y : Nat}
    (h : connectedIn (es ++ [(w, u, v)]) x y) :
    connectedIn es x y ∨
      (connectedIn es x u ∧ connectedIn es v y) ∨
      (connectedIn es x v ∧ connectedIn es u y) := by
  induction h with
  | refl => exact Or.inl (connectedIn_refl x)
  | tail h1 h2 ih =>
    obtain ⟨f, hf, hor⟩ := h2
    rcases List.mem_append.mp hf with hfes | hflast
    · rcases ih with hc | ⟨ha, hb⟩ | ⟨ha, hb⟩
      · exact Or.inl (hc.tail ⟨f, hfes, hor⟩)
      · exact Or.inr (Or.inl ⟨ha, hb.tail ⟨f, hfes, hor⟩⟩)
      · exact Or.inr (Or.inr ⟨ha, hb.tail ⟨f, hfes, hor⟩⟩)
    · have hfeq : f = (w, u, v) := by simpa using hflast
      subst hfeq
      rcases hor with ⟨hb, hc⟩ | ⟨hb, hc⟩
      · simp only at hb hc
        subst hb; subst hc
        rcases ih with hc | ⟨ha, hb⟩ | ⟨ha, hb⟩
        · exact Or.inr (Or.inl ⟨hc, connectedIn_refl _⟩)
        · exact Or.inr (Or.inl ⟨ha, connectedIn_refl _⟩)
        · exact Or.inl ha
      · simp only at hb hc
        subst hb; subst hc
        rcases ih with hc | ⟨ha, hb⟩ | ⟨ha, hb⟩
        · exact Or.inr (Or.inr ⟨hc, connectedIn_refl _⟩)
        · exact Or.inl ha
        · exact Or.inr (Or.inr ⟨ha, connectedIn_refl _⟩)

theorem isForest_nil : IsForest [] := by
  intro pre e post h
  cases pre <;> simp at h

theorem IsForest.sublist {S T : List Edge} (hsub : S.Sublist T)
    (hT : IsForest T) : IsForest S := by
  intro pre e post h
  subst h
  obtain ⟨r1, r2, hT2, hpre, hrest⟩ := List.append_sublist_iff.mp hsub
  obtain ⟨p1, p2, hr2, hemem, hpost⟩ := List.cons_sublist_iff.mp hrest
  obtain ⟨q1, q2, hq⟩ := List.mem_iff_append.mp hemem
  subst hq
  subst hr2
  subst hT2
  have hTsplit : r1 ++ (q1 ++ e :: q2 ++ p2) =
      (r1 ++ q1) ++ e :: (q2 ++ p2) := by simp
  have hnc := hT (r1 ++ q1) e (q2 ++ p2) hTsplit
  intro hcon
  apply hnc
  refine connectedIn_mono ?_ hcon
  intro f hfeq
  rcases List.mem_append.mp hfeq with hf | hf
  · exact List.mem_append.mpr (Or.inl (List.mem_append.mpr (Or.inl (hpre.subset hf))))
  · exact List.mem_append.mpr (Or.inr (List.mem_append.mpr (Or.inr (hpost.subset hf))))

theorem append_single_eq_split {F pre post : List Edge} {ed e : Edge}
    (h : F ++ [ed] = pre ++ e :: post) :
    (pre = F ∧ e = ed ∧ post = []) ∨
      (∃ post2, post = post2 ++ [ed] ∧ F = pre ++ e :: post2) := by
  rcases post.eq_nil_or_concat with rfl | ⟨post2, b, hpost⟩
  · obtain ⟨h1, h2⟩ := List.append_inj' h rfl
    refine Or.inl ⟨h1.symm, ?_, rfl⟩
    injection h2 with h3 h4
    exact h3.symm
  · rw [List.concat_eq_append] at hpost
    subst hpost
    have h2 : F ++ [ed] = (pre ++ e :: post2) ++ [b] := by
      rw [h]; simp
    obtain ⟨h3, h4⟩ := List.append_inj' h2 rfl
    injection h4 with h5 h6
    subst h5
    exact Or.inr ⟨post2, rfl, h3⟩

theorem IsForest.append_single {F : List Edge} {w : Int} {u v : Nat}
    (hF : IsForest F) (hcon : ¬ connectedIn F u v) :
    IsForest (F ++ [(w, u, v)]) := by
  intro pre e post h
  rcases append_single_eq_split h with ⟨rfl, rfl, rfl⟩ | ⟨post2, rfl, rfl⟩
  · intro hc
    apply hcon
    simpa using hc
  · intro hc
    have hassoc : pre ++ (post2 ++ [(w, u, v)]) = (pre ++ post2) ++ [(w, u, v)] := by
      simp
    rw [hassoc] at hc
    have hmemF : ∀ f ∈ pre ++ post2, f ∈ pre ++ e :: post2 := by
      intro f hf
      rcases List.mem_append.mp hf with hf | hf
      · exact List.mem_append.mpr (Or.inl hf)
      · exact List.mem_append.mpr (Or.inr (List.mem_cons_of_mem _ hf))
    have hedge : connectedIn (pre ++ e :: post2) e.2.1 e.2.2 :=
      connectedIn_of_mem (List.mem_append.mpr (Or.inr (List.mem_cons_self _ _)))
    rcases connectedIn_append_single hc with hc1 | ⟨ha, hb⟩ | ⟨ha, hb⟩
    · exact hF pre e post2 rfl hc1
    · -- endpoints of e reach u and v without e; crossing e links u and v in F
      apply hcon
      have h1 : connectedIn (pre ++ e :: post2) u e.2.1 :=
        connectedIn_mono hmemF (connectedIn_symm ha)
      have h2 : connectedIn (pre ++ e :: post2) e.2.2 v :=
        connectedIn_mono hmemF (connectedIn_symm hb)
      exact connectedIn_trans (connectedIn_trans h1 hedge) h2
    · apply hcon
      have h1 : connectedIn (pre ++ e :: post2) u e.2.2 :=
        connectedIn_mono hmemF hb
      have h2 : connectedIn (pre ++ e :: post2) e.2.1 v :=
        connectedIn_mono hmemF ha
      exact connectedIn_trans (connectedIn_trans h1 (connectedIn_symm hedge)) h2

theorem IsForest.of_append_single {F : List Edge} {e : Edge}
    (h : IsForest (F ++ [e])) : IsForest F :=
  h.sublist (List.sublist_append_left F [e])

theorem IsForest.last_bridge {F : List Edge} {e : Edge}
    (h : IsForest (F ++ [e])) : ¬ connectedIn F e.2.1 e.2.2 := by
  have := h F e [] (by simp)
  intro hc
  exact this (by simpa using hc)

theorem eqvGen_of_imp_eqvGen {r r2 : Nat → Nat → Prop}
    (h : ∀ a b, r a b → Relation.EqvGen r2 a b) {a b : Nat}
    (hab : Relation.EqvGen r a b) : Relation.EqvGen r2 a b := by
  induction hab with
  | rel x y hxy => exact h x y hxy
  | refl => exact Relation.EqvGen.refl _
  | symm x y hxy ih => exact Relation.EqvGen.symm x y ih
  | trans x y z h1 h2 ih1 ih2 => exact Relation.EqvGen.trans x y z ih1 ih2

theorem eqvGen_congr {r r2 : Nat → Nat → Prop}
    (h : ∀ a b, r a b ↔ r2 a b) {a b : Nat} :
    Relation.EqvGen r a b ↔ Relation.EqvGen r2 a b := by
  constructor
  · exact eqvGen_of_imp_eqvGen
      (fun x y hxy => Relation.EqvGen.rel x y ((h x y).mp hxy))
  · exact eqvGen_of_imp_eqvGen
      (fun x y hxy => Relation.EqvGen.rel x y ((h x y).mpr hxy))

/-- For a symmetric relation the equivalence closure is the
reflexive-transitive closure. -/
theorem eqvGen_iff_reflTransGen {r : Nat → Nat → Prop} (hsymm : Symmetric r)
    {a b : Nat} : Relation.EqvGen r a b ↔ Relation.ReflTransGen r a b := by
  constructor
  · intro h
    induction h with
    | rel x y hxy => exact Relation.ReflTransGen.single hxy
    | refl => exact Relation.ReflTransGen.refl
    | symm x y hxy ih => exact Relation.ReflTransGen.symmetric hsymm ih
    | trans x y z h1 h2 ih1 ih2 => exact ih1.trans ih2
  · intro h
    induction h with
    | refl => exact Relation.EqvGen.refl _
    | tail h1 h2 ih => exact Relation.EqvGen.trans _ _ _ ih (Relation.EqvGen.rel _ _ h2)

/-- Characterisation of equality after redirecting `s` to `d`. -/
theorem redirect_eq_iff {s d r1 r2 : Nat} :
    ((if r1 = s then d else r1) = (if r2 = s then d else r2)) ↔
      (r1 = r2 ∨ ((r1 = s ∨ r1 = d) ∧ (r2 = s ∨ r2 = d))) := by
  by_cases h1 : r1 = s <;> by_cases h2 : r2 = s
  · rw [if_pos h1, if_pos h2]
    exact iff_of_true rfl (Or.inl (h1.trans h2.symm))
  · rw [if_pos h1, if_neg h2]
    constructor
    · intro hh
      exact Or.inr ⟨Or.inl h1, Or.inr hh.symm⟩
    · intro hh
      rcases hh with hh | ⟨hl, hr⟩
      · exact absurd (hh ▸ h1) h2
      · rcases hr with hr | hr
        · exact absurd hr h2
        · exact hr.symm
  · rw [if_neg h1, if_pos h2]
    constructor
    · intro hh
      exact Or.inr ⟨Or.inr hh, Or.inl h2⟩
    · intro hh
      rcases hh with hh | ⟨hl, hr⟩
      · exact absurd (hh.trans h2) h1
      · rcases hl with hl | hl
        · exact absurd hl h1
        · exact hl
  · rw [if_neg h1, if_neg h2]
    constructor
    · intro hh
      exact Or.inl hh
    · intro hh
      rcases hh with hh | ⟨hl, hr⟩
      · exact hh
      · rcases hl with hl | hl
        · exact absurd hl h1
        · rcases hr with hr | hr
          · exact absurd hr h2
          · exact hl.trans hr.symm

theorem UnionFind.init_rootN (n : Nat) (x : Nat) :
    (UnionFind.init n).rootN x = x := by
  have : isRoot (UnionFind.init n).parent x := by
    show (List.range n).getD x x = x
    exact getD_range_self
  exact UnionFind.rootN_of_isRoot this

/-- Root formula of a union step, extended to all of `Nat` (out-of-range
nodes are fixed points of `rootN` on both sides). -/
theorem UnionFind.union_rootN_total {uf : UnionFind} (h : uf.WF) {a b : Nat}
    (ha : a < uf.parent.length) (hb : b < uf.parent.length) :
    (uf.union a b).2.WF ∧
    (uf.union a b).2.parent.length = uf.parent.length ∧
    ∃ s d, s < uf.parent.length ∧ d < uf.parent.length ∧
      ((uf.rootN a = uf.rootN b ∧ s = d) ∨
        (uf.rootN a ≠ uf.rootN b ∧ s ≠ d ∧
          ((s = uf.rootN a ∧ d = uf.rootN b) ∨ (s = uf.rootN b ∧ d = uf.rootN a)))) ∧
      ∀ x, (uf.union a b).2.rootN x = if uf.rootN x = s then d else uf.rootN x := by
  by_cases heq : uf.rootN a = uf.rootN b
  · obtain ⟨-, hwf, hlen, -, hform⟩ := UnionFind.union_false_spec h ha hb heq
    refine ⟨hwf, hlen, uf.rootN a, uf.rootN a, UnionFind.rootN_lt h ha,
      UnionFind.rootN_lt h ha, Or.inl ⟨heq, rfl⟩, ?_⟩
    intro x
    by_cases hx : x < uf.parent.length
    · rw [hform x hx]
      by_cases hc : uf.rootN x = uf.rootN a
      · rw [if_pos hc]; exact hc
      · rw [if_neg hc]
    · have hx2 : uf.parent.length ≤ x := Nat.le_of_not_lt hx
      rw [UnionFind.rootN_out (by rw [hlen]; exact hx2), UnionFind.rootN_out hx2]
      by_cases hc : x = uf.rootN a
      · rw [if_pos hc]; exact hc
      · rw [if_neg hc]
  · obtain ⟨s, d, hsd, -, hwf, hlen, hform⟩ := UnionFind.union_true_spec h ha hb heq
    have hsn : s < uf.parent.length := by
      rcases hsd with ⟨rfl, -⟩ | ⟨rfl, -⟩
      · exact UnionFind.rootN_lt h ha
      · exact UnionFind.rootN_lt h hb
    have hdn : d < uf.parent.length := by
      rcases hsd with ⟨-, rfl⟩ | ⟨-, rfl⟩
      · exact UnionFind.rootN_lt h hb
      · exact UnionFind.rootN_lt h ha
    have hsdne : s ≠ d := by
      rcases hsd with ⟨rfl, rfl⟩ | ⟨rfl, rfl⟩
      · exact heq
      · exact Ne.symm heq
    refine ⟨hwf, hlen, s, d, hsn, hdn, Or.inr ⟨heq, hsdne, hsd⟩, ?_⟩
    intro x
    by_cases hx : x < uf.parent.length
    · exact hform x hx
    · have hx2 : uf.parent.length ≤ x := Nat.le_of_not_lt hx
      rw [UnionFind.rootN_out (by rw [hlen]; exact hx2), UnionFind.rootN_out hx2]
      rw [if_neg (by omega)]

/-- Folding `union` over an edge list: the resulting root partition is the
equivalence closure of the starting partition joined with adjacency. -/
theorem foldl_union_spec :
    ∀ (es : List Edge) (uf : UnionFind), uf.WF →
      (∀ e ∈ es, e.2.1 < uf.parent.length ∧ e.2.2 < uf.parent.length) →
      (es.foldl (fun acc e => (acc.union e.2.1 e.2.2).2) uf).WF ∧
      (es.foldl (fun acc e => (acc.union e.2.1 e.2.2).2) uf).parent.length =
        uf.parent.length ∧
      ∀ x y,
        ((es.foldl (fun acc e => (acc.union e.2.1 e.2.2).2) uf).rootN x =
            (es.foldl (fun acc e => (acc.union e.2.1 e.2.2).2) uf).rootN y ↔
          Relation.EqvGen
            (fun p q => uf.rootN p = uf.rootN q ∨ adjRel es p q) x y) := by
  intro es
  induction es with
  | nil =>
    intro uf hwf _
    refine ⟨hwf, rfl, ?_⟩
    intro x y
    rw [List.foldl_nil]
    have hequiv : Equivalence (fun p q : Nat => uf.rootN p = uf.rootN q) :=
      ⟨fun _ => rfl, Eq.symm, Eq.trans⟩
    constructor
    · intro hxy
      exact Relation.EqvGen.rel x y (Or.inl hxy)
    · intro hxy
      have h2 : Relation.EqvGen (fun p q : Nat => uf.rootN p = uf.rootN q) x y := by
        refine eqvGen_of_imp_eqvGen ?_ hxy
        intro p q hpq
        rcases hpq with hpq | ⟨f, hf, -⟩
        · exact Relation.EqvGen.rel p q hpq
        · simp at hf
      rw [hequiv.eqvGen_eq] at h2
      exact h2
  | cons e rest ih =>
    intro uf hwf hok
    have hu : e.2.1 < uf.parent.length := (hok e (List.mem_cons_self e rest)).1
    have hv : e.2.2 < uf.parent.length := (hok e (List.mem_cons_self e rest)).2
    obtain ⟨hwf1, hlen1, s, d, hsn, hdn, hcase, hform⟩ :=
      UnionFind.union_rootN_total hwf hu hv
    have hok1 : ∀ f ∈ rest, f.2.1 < (uf.union e.2.1 e.2.2).2.parent.length ∧
        f.2.2 < (uf.union e.2.1 e.2.2).2.parent.length := by
      intro f hf
      rw [hlen1]
      exact hok f (List.mem_cons_of_mem _ hf)
    obtain ⟨hwfF, hlenF, hiffF⟩ := ih (uf.union e.2.1 e.2.2).2 hwf1 hok1
    rw [List.foldl_cons]
    refine ⟨hwfF, by rw [hlenF, hlen1], ?_⟩
    intro x y
    rw [hiffF x y]
    have huv1 : (uf.union e.2.1 e.2.2).2.rootN e.2.1 =
        (uf.union e.2.1 e.2.2).2.rootN e.2.2 := by
      rw [hform, hform]
      rcases hcase with ⟨hre, rfl⟩ | ⟨hre, hsd, hor⟩
      · rw [hre]
      · rcases hor with ⟨rfl, rfl⟩ | ⟨rfl, rfl⟩
        · rw [if_pos rfl, if_neg (Ne.symm hre)]
        · rw [if_neg hre, if_pos rfl]
    have hadj_uv : adjRel (e :: rest) e.2.1 e.2.2 :=
      ⟨e, List.mem_cons_self e rest, Or.inl ⟨rfl, rfl⟩⟩
    constructor
    · refine eqvGen_of_imp_eqvGen ?_
      intro p q hpq
      rcases hpq with hroots | hadj
      · rw [hform p, hform q] at hroots
        rcases redirect_eq_iff.mp hroots with hre | ⟨hp, hq⟩
        · exact Relation.EqvGen.rel p q (Or.inl hre)
        · rcases hcase with ⟨-, hsd2⟩ | ⟨hre, hsd, hor⟩
          · have hp2 : uf.rootN p = d := by
              rcases hp with hp | hp
              · rw [hp, hsd2]
              · exact hp
            have hq2 : uf.rootN q = d := by
              rcases hq with hq | hq
              · rw [hq, hsd2]
              · exact hq
            exact Relation.EqvGen.rel p q (Or.inl (hp2.trans hq2.symm))
          · have hzu : ∀ z, (uf.rootN z = s ∨ uf.rootN z = d) →
                Relation.EqvGen (fun p2 q2 => uf.rootN p2 = uf.rootN q2 ∨
                  adjRel (e :: rest) p2 q2) z e.2.1 := by
              intro z hz
              rcases hor with ⟨hs2, hd2⟩ | ⟨hs2, hd2⟩
              · rcases hz with hz | hz
                · exact Relation.EqvGen.rel _ _ (Or.inl (hz.trans hs2))
                · exact Relation.EqvGen.trans _ _ _
                    (Relation.EqvGen.rel _ _ (Or.inl (hz.trans hd2)))
                    (Relation.EqvGen.symm _ _
                      (Relation.EqvGen.rel _ _ (Or.inr hadj_uv)))
              · rcases hz with hz | hz
                · exact Relation.EqvGen.trans _ _ _
                    (Relation.EqvGen.rel _ _ (Or.inl (hz.trans hs2)))
                    (Relation.EqvGen.symm _ _
                      (Relation.EqvGen.rel _ _ (Or.inr hadj_uv)))
                · exact Relation.EqvGen.rel _ _ (Or.inl (hz.trans hd2))
            exact Relation.EqvGen.trans _ _ _ (hzu p hp)
              (Relation.EqvGen.symm _ _ (hzu q hq))
      · obtain ⟨f, hf, horr⟩ := hadj
        exact Relation.EqvGen.rel p q (Or.inr ⟨f, List.mem_cons_of_mem _ hf, horr⟩)
    · refine eqvGen_of_imp_eqvGen ?_
      intro p q hpq
      rcases hpq with hroots | hadj
      · refine Relation.EqvGen.rel p q (Or.inl ?_)
        rw [hform p, hform q, hroots]
      · obtain ⟨f, hf, horr⟩ := hadj
        rcases List.mem_cons.mp hf with rfl | hf2
        · rcases horr with ⟨hp, hq⟩ | ⟨hp, hq⟩
          · subst hp; subst hq
            exact Relation.EqvGen.rel _ _ (Or.inl huv1)
          · subst hp; subst hq
            exact Relation.EqvGen.symm _ _
              (Relation.EqvGen.rel _ _ (Or.inl huv1))
        · exact Relation.EqvGen.rel p q (Or.inr ⟨f, hf2, horr⟩)

theorem ufOfEdges_spec {n : Nat} {es : List Edge} (hok : EdgesOk n es) :
    (ufOfEdges n es).WF ∧ (ufOfEdges n es).parent.length = n ∧
    ∀ x y, ((ufOfEdges n es).rootN x = (ufOfEdges n es).rootN y ↔
      connectedIn es x y) := by
  have hok2 : ∀ e ∈ es, e.2.1 < (UnionFind.init n).parent.length ∧
      e.2.2 < (UnionFind.init n).parent.length := by
    intro e he
    rw [UnionFind.init_parent_length]
    exact hok e he
  obtain ⟨hwf, hlen, hiff⟩ :=
    foldl_union_spec es (UnionFind.init n) (UnionFind.init_wf n) hok2
  refine ⟨hwf, ?_, ?_⟩
  · show (ufOfEdges n es).parent.length = n
    unfold ufOfEdges
    rw [hlen, UnionFind.init_parent_length]
  intro x y
  show (ufOfEdges n es).rootN x = (ufOfEdges n es).rootN y ↔ _
  unfold ufOfEdges
  rw [hiff x y]
  constructor
  · intro h
    have h2 : Relation.EqvGen (adjRel es) x y := by
      refine eqvGen_of_imp_eqvGen ?_ h
      intro p q hpq
      rcases hpq with hpq | hpq
      · rw [UnionFind.init_rootN, UnionFind.init_rootN] at hpq
        subst hpq
        exact Relation.EqvGen.refl _
      · exact Relation.EqvGen.rel _ _ hpq
    exact (eqvGen_iff_reflTransGen adjRel_symm).mp h2
  · intro h
    have h2 : Relation.EqvGen (adjRel es) x y :=
      (eqvGen_iff_reflTransGen adjRel_symm).mpr h
    exact eqvGen_of_imp_eqvGen
      (fun p q hpq => Relation.EqvGen.rel _ _ (Or.inr hpq)) h2

theorem setsCount_init (n : Nat) : (UnionFind.init n).setsCount = n := by
  rw [UnionFind.setsCount_eq_image_rootN (UnionFind.init_wf n),
    UnionFind.init_parent_length]
  have himg : (Finset.range n).image (UnionFind.init n).rootN =
      Finset.range n := by
    apply Finset.ext
    intro y
    constructor
    · intro hy
      obtain ⟨x, hx, hxy⟩ := Finset.mem_image.mp hy
      rw [UnionFind.init_rootN] at hxy
      rw [← hxy]
      exact hx
    · intro hy
      exact Finset.mem_image.mpr ⟨y, hy, UnionFind.init_rootN n y⟩
  rw [himg, Finset.card_range]

theorem numComponents_nil (n : Nat) : numComponents n [] = n := by
  unfold numComponents ufOfEdges
  rw [List.foldl_nil]
  exact setsCount_init n

theorem ufOfEdges_append_single (n : Nat) (F : List Edge) (e : Edge) :
    ufOfEdges n (F ++ [e]) = ((ufOfEdges n F).union e.2.1 e.2.2).2 := by
  unfold ufOfEdges
  rw [List.foldl_append, List.foldl_cons, List.foldl_nil]

theorem forest_count {n : Nat} {F : List Edge} (hF : IsForest F)
    (hok : EdgesOk n F) : F.length + numComponents n F = n := by
  induction F using List.reverseRecOn with
  | nil => simpa using numComponents_nil n
  | append_singleton F e ih =>
    have hokF : EdgesOk n F := by
      intro f hf
      exact hok f (List.mem_append.mpr (Or.inl hf))
    have hoke : e.2.1 < n ∧ e.2.2 < n :=
      hok e (List.mem_append.mpr (Or.inr (List.mem_singleton_self e)))
    obtain ⟨hwf, hlen, hiff⟩ := ufOfEdges_spec hokF
    have hbridge : ¬ connectedIn F e.2.1 e.2.2 := hF.last_bridge
    have hroots : (ufOfEdges n F).rootN e.2.1 ≠ (ufOfEdges n F).rootN e.2.2 :=
      fun hc => hbridge ((hiff _ _).mp hc)
    have hdec := UnionFind.union_true_setsCount hwf
      (by rw [hlen]; exact hoke.1) (by rw [hlen]; exact hoke.2) hroots
    have hIH := ih (hF.of_append_single) hokF
    unfold numComponents at hIH ⊢
    rw [ufOfEdges_append_single]
    simp only [List.length_append, List.length_singleton]
    omega

theorem numComponents_le_of_imp {n : Nat} {X Y : List Edge}
    (hokX : EdgesOk n X) (hokY : EdgesOk n Y)
    (himp : ∀ x y, connectedIn X x y → connectedIn Y x y) :
    numComponents n Y ≤ numComponents n X := by
  obtain ⟨hwfX, hlenX, hiffX⟩ := ufOfEdges_spec hokX
  obtain ⟨hwfY, hlenY, hiffY⟩ := ufOfEdges_spec hokY
  unfold numComponents
  rw [UnionFind.setsCount_eq_image_rootN hwfX,
    UnionFind.setsCount_eq_image_rootN hwfY, hlenX, hlenY]
  have himg : (Finset.range n).image (ufOfEdges n Y).rootN =
      ((Finset.range n).image (ufOfEdges n X).rootN).image (ufOfEdges n Y).rootN := by
    apply Finset.ext
    intro y
    constructor
    · intro hy
      obtain ⟨z, hz, hzy⟩ := Finset.mem_image.mp hy
      have hzn := Finset.mem_range.mp hz
      have hconnX : connectedIn X z ((ufOfEdges n X).rootN z) := by
        refine (hiffX z _).mp ?_
        exact (UnionFind.rootN_idem hwfX (by rw [hlenX]; exact hzn)).symm
      have hconnY : connectedIn Y z ((ufOfEdges n X).rootN z) := himp _ _ hconnX
      have hYeq : (ufOfEdges n Y).rootN z =
          (ufOfEdges n Y).rootN ((ufOfEdges n X).rootN z) := (hiffY _ _).mpr hconnY
      refine Finset.mem_image.mpr ⟨(ufOfEdges n X).rootN z, ?_, ?_⟩
      · refine Finset.mem_image.mpr ⟨z, hz, rfl⟩
      · rw [← hYeq, hzy]
    · intro hy
      obtain ⟨r, hr, hry⟩ := Finset.mem_image.mp hy
      obtain ⟨z, hz, hzr⟩ := Finset.mem_image.mp hr
      have hrn : r < n := by
        have h2 := UnionFind.rootN_lt hwfX
          (x := z) (by rw [hlenX]; exact Finset.mem_range.mp hz)
        rw [hlenX] at h2
        rw [← hzr]
        exact h2
      exact Finset.mem_image.mpr ⟨r, Finset.mem_range.mpr hrn, hry⟩
  rw [himg]
  exact Finset.card_image_le

theorem numComponents_pos {n : Nat} {es : List Edge} (hn : 1 ≤ n)
    (hok : EdgesOk n es) : 1 ≤ numComponents n es := by
  obtain ⟨hwf, hlen, -⟩ := ufOfEdges_spec hok
  unfold numComponents
  rw [UnionFind.setsCount_eq_image_rootN hwf, hlen]
  refine Finset.card_pos.mpr ⟨(ufOfEdges n es).rootN 0, ?_⟩
  exact Finset.mem_image.mpr ⟨0, Finset.mem_range.mpr (by omega), rfl⟩

theorem numComponents_eq_one {n : Nat} {es : List Edge} (hn : 1 ≤ n)
    (hok : EdgesOk n es) (hconn : ∀ x y, x < n → y < n → connectedIn es x y) :
    numComponents n es = 1 := by
  obtain ⟨hwf, hlen, hiff⟩ := ufOfEdges_spec hok
  unfold numComponents
  rw [UnionFind.setsCount_eq_image_rootN hwf, hlen]
  have himg : (Finset.range n).image (ufOfEdges n es).rootN =
      {(ufOfEdges n es).rootN 0} := by
    apply Finset.ext
    intro y
    constructor
    · intro hy
      obtain ⟨z, hz, hzy⟩ := Finset.mem_image.mp hy
      have : (ufOfEdges n es).rootN z = (ufOfEdges n es).rootN 0 :=
        (hiff z 0).mpr (hconn z 0 (Finset.mem_range.mp hz) (by omega))
      rw [← hzy, this]
      exact Finset.mem_singleton_self _
    · intro hy
      rw [Finset.mem_singleton.mp hy]
      exact Finset.mem_image.mpr ⟨0, Finset.mem_range.mpr (by omega), rfl⟩
  rw [himg, Finset.card_singleton]

theorem connected_of_numComponents_one {n : Nat} {es : List Edge}
    (hok : EdgesOk n es) (hone : numComponents n es = 1) :
    ∀ x y, x < n → y < n → connectedIn es x y := by
  obtain ⟨hwf, hlen, hiff⟩ := ufOfEdges_spec hok
  unfold numComponents at hone
  rw [UnionFind.setsCount_eq_image_rootN hwf, hlen] at hone
  intro x y hx hy
  refine (hiff x y).mp ?_
  have hxmem : (ufOfEdges n es).rootN x ∈
      (Finset.range n).image (ufOfEdges n es).rootN :=
    Finset.mem_image.mpr ⟨x, Finset.mem_range.mpr hx, rfl⟩
  have hymem : (ufOfEdges n es).rootN y ∈
      (Finset.range n).image (ufOfEdges n es).rootN :=
    Finset.mem_image.mpr ⟨y, Finset.mem_range.mpr hy, rfl⟩
  exact Finset.card_le_one.mp (by omega) _ hxmem _ hymem

/-- Executing `union` calls: the final partition is the equivalence
closure of the starting partition joined with the accepted pairs. -/
theorem runOpsAux_spec :
    ∀ (ops : List (Nat × Nat)) (uf : UnionFind) (acc : List (Nat × Nat)),
      uf.WF →
      (∀ p ∈ ops, p.1 < uf.parent.length ∧ p.2 < uf.parent.length) →
      ∃ dl, (runOpsAux ops uf acc).2 = acc ++ dl ∧
        (runOpsAux ops uf acc).1.WF ∧
        (runOpsAux ops uf acc).1.parent.length = uf.parent.length ∧
        ∀ x y, ((runOpsAux ops uf acc).1.rootN x =
            (runOpsAux ops uf acc).1.rootN y ↔
          Relation.EqvGen
            (fun p q => uf.rootN p = uf.rootN q ∨ (p, q) ∈ dl) x y) := by
  intro ops
  induction ops with
  | nil =>
    intro uf acc hwf _
    refine ⟨[], by simp [runOpsAux], hwf, rfl, ?_⟩
    intro x y
    show uf.rootN x = uf.rootN y ↔ _
    have hequiv : Equivalence (fun p q : Nat => uf.rootN p = uf.rootN q) :=
      ⟨fun _ => rfl, Eq.symm, Eq.trans⟩
    constructor
    · intro hxy
      exact Relation.EqvGen.rel x y (Or.inl hxy)
    · intro hxy
      have h2 : Relation.EqvGen (fun p q : Nat => uf.rootN p = uf.rootN q) x y := by
        refine eqvGen_of_imp_eqvGen ?_ hxy
        intro p q hpq
        rcases hpq with hpq | hpq
        · exact Relation.EqvGen.rel p q hpq
        · simp at hpq
      rw [hequiv.eqvGen_eq] at h2
      exact h2
  | cons op rest ih =>
    intro uf acc hwf hok
    have hu : op.1 < uf.parent.length := (hok op (List.mem_cons_self op rest)).1
    have hv : op.2 < uf.parent.length := (hok op (List.mem_cons_self op rest)).2
    obtain ⟨hwf1, hlen1, s, d, hsn, hdn, hcase, hform⟩ :=
      UnionFind.union_rootN_total hwf hu hv
    have hok1 : ∀ p ∈ rest, p.1 < (uf.union op.1 op.2).2.parent.length ∧
        p.2 < (uf.union op.1 op.2).2.parent.length := by
      intro p hp
      rw [hlen1]
      exact hok p (List.mem_cons_of_mem _ hp)
    have hrun : runOpsAux (op :: rest) uf acc =
        runOpsAux rest (uf.union op.1 op.2).2
          (if (uf.union op.1 op.2).1 then acc ++ [op] else acc) := rfl
    by_cases heq : uf.rootN op.1 = uf.rootN op.2
    · -- already connected: union returns false, pair not accepted
      obtain ⟨hfalse, -, -, -, -⟩ := UnionFind.union_false_spec hwf hu hv heq
      have hacc : (if (uf.union op.1 op.2).1 then acc ++ [op] else acc) = acc := by
        rw [hfalse]
        rfl
      rw [hacc] at hrun
      obtain ⟨dl, hdl, hwfF, hlenF, hiffF⟩ :=
        ih (uf.union op.1 op.2).2 acc hwf1 hok1
      refine ⟨dl, by rw [hrun, hdl], ?_, ?_, ?_⟩
      · rw [hrun]; exact hwfF
      · rw [hrun, hlenF, hlen1]
      intro x y
      rw [hrun, hiffF x y]
      have hid : ∀ z, (uf.union op.1 op.2).2.rootN z = uf.rootN z := by
        intro z
        rw [hform z]
        rcases hcase with ⟨-, hsd2⟩ | ⟨hre, -, -⟩
        · by_cases hc : uf.rootN z = s
          · rw [if_pos hc, hc, hsd2]
          · rw [if_neg hc]
        · exact absurd heq hre
      refine eqvGen_congr ?_
      intro p q
      rw [hid p, hid q]
    · -- distinct roots: union returns true, the pair is accepted
      obtain ⟨s2, d2, -, htrue, -, -, -⟩ := UnionFind.union_true_spec hwf hu hv heq
      have hsd : s ≠ d ∧ ((s = uf.rootN op.1 ∧ d = uf.rootN op.2) ∨
          (s = uf.rootN op.2 ∧ d = uf.rootN op.1)) := by
        rcases hcase with ⟨hre, -⟩ | ⟨-, h1, h2⟩
        · exact absurd hre heq
        · exact ⟨h1, h2⟩
      have hacc : (if (uf.union op.1 op.2).1 then acc ++ [op] else acc) =
          acc ++ [op] := by
        rw [htrue]
        rfl
      rw [hacc] at hrun
      obtain ⟨dl, hdl, hwfF, hlenF, hiffF⟩ :=
        ih (uf.union op.1 op.2).2 (acc ++ [op]) hwf1 hok1
      refine ⟨op :: dl, by rw [hrun, hdl]; simp, ?_, ?_, ?_⟩
      · rw [hrun]; exact hwfF
      · rw [hrun, hlenF, hlen1]
      intro x y
      rw [hrun, hiffF x y]
      have huv1 : (uf.union op.1 op.2).2.rootN op.1 =
          (uf.union op.1 op.2).2.rootN op.2 := by
        rw [hform, hform]
        rcases hsd.2 with ⟨rfl, rfl⟩ | ⟨rfl, rfl⟩
        · rw [if_pos rfl, if_neg (Ne.symm heq)]
        · rw [if_neg heq, if_pos rfl]
      constructor
      · refine eqvGen_of_imp_eqvGen ?_
        intro p q hpq
        rcases hpq with hroots | hmem
        · rw [hform p, hform q] at hroots
          rcases redirect_eq_iff.mp hroots with hre | ⟨hp, hq⟩
          · exact Relation.EqvGen.rel p q (Or.inl hre)
          · have hpairmem : (op.1, op.2) ∈ op :: dl := by
              rw [show (op.1, op.2) = op from rfl]
              exact List.mem_cons_self op dl
            have hzu : ∀ z, (uf.rootN z = s ∨ uf.rootN z = d) →
                Relation.EqvGen (fun p2 q2 => uf.rootN p2 = uf.rootN q2 ∨
                  (p2, q2) ∈ op :: dl) z op.1 := by
              intro z hz
              rcases hsd.2 with ⟨hs2, hd2⟩ | ⟨hs2, hd2⟩
              · rcases hz with hz | hz
                · exact Relation.EqvGen.rel _ _ (Or.inl (hz.trans hs2))
                · exact Relation.EqvGen.trans _ _ _
                    (Relation.EqvGen.rel _ _ (Or.inl (hz.trans hd2)))
                    (Relation.EqvGen.symm _ _
                      (Relation.EqvGen.rel _ _ (Or.inr hpairmem)))
              · rcases hz with hz | hz
                · exact Relation.EqvGen.trans _ _ _
                    (Relation.EqvGen.rel _ _ (Or.inl (hz.trans hs2)))
                    (Relation.EqvGen.symm _ _
                      (Relation.EqvGen.rel _ _ (Or.inr hpairmem)))
                · exact Relation.EqvGen.rel _ _ (Or.inl (hz.trans hd2))
            exact Relation.EqvGen.trans _ _ _ (hzu p hp)
              (Relation.EqvGen.symm _ _ (hzu q hq))
        · exact Relation.EqvGen.rel p q
            (Or.inr (List.mem_cons_of_mem _ hmem))
      · refine eqvGen_of_imp_eqvGen ?_
        intro p q hpq
        rcases hpq with hroots | hmem
        · refine Relation.EqvGen.rel p q (Or.inl ?_)
          rw [hform p, hform q, hroots]
        · rcases List.mem_cons.mp hmem with hph | hmem2
          · have hp1 : p = op.1 := congrArg Prod.fst hph
            have hp2 : q = op.2 := congrArg Prod.snd hph
            subst hp1; subst hp2
            exact Relation.EqvGen.rel _ _ (Or.inl huv1)
          · exact Relation.EqvGen.rel p q (Or.inr hmem2)

/-- Running `union` calls from a fresh structure: the final partition is
the equivalence closure of the accepted pairs. -/
theorem runOps_spec {n : Nat} {ops : List (Nat × Nat)}
    (hok : ∀ p ∈ ops, p.1 < n ∧ p.2 < n) :
    (runOps n ops).1.WF ∧ (runOps n ops).1.parent.length = n ∧
    ∀ x y, ((runOps n ops).1.rootN x = (runOps n ops).1.rootN y ↔
      Relation.EqvGen (fun p q => (p, q) ∈ (runOps n ops).2) x y) := by
  have hok2 : ∀ p ∈ ops, p.1 < (UnionFind.init n).parent.length ∧
      p.2 < (UnionFind.init n).parent.length := by
    intro p hp
    rw [UnionFind.init_parent_length]
    exact hok p hp
  obtain ⟨dl, hdl, hwf, hlen, hiff⟩ :=
    runOpsAux_spec ops (UnionFind.init n) [] (UnionFind.init_wf n) hok2
  have hdl2 : (runOps n ops).2 = dl := by
    show (runOpsAux ops (UnionFind.init n) []).2 = dl
    rw [hdl]
    rfl
  refine ⟨hwf, by rw [show (runOps n ops).1 = (runOpsAux ops (UnionFind.init n) []).1 from rfl, hlen, UnionFind.init_parent_length], ?_⟩
  intro x y
  show (runOpsAux ops (UnionFind.init n) []).1.rootN x =
      (runOpsAux ops (UnionFind.init n) []).1.rootN y ↔
    Relation.EqvGen
      (fun p q => (p, q) ∈ (runOpsAux ops (UnionFind.init n) []).2) x y
  rw [hiff x y, hdl]
  constructor
  · refine eqvGen_of_imp_eqvGen ?_
    intro p q hpq
    rcases hpq with hpq | hpq
    · rw [UnionFind.init_rootN, UnionFind.init_rootN] at hpq
      subst hpq
      exact Relation.EqvGen.refl _
    · exact Relation.EqvGen.rel _ _ hpq
  · exact eqvGen_of_imp_eqvGen
      (fun p q hpq => Relation.EqvGen.rel _ _ (Or.inr hpq))

theorem insertEdge_perm (e : Edge) (l : List Edge) :
    List.Perm (insertEdge e l) (e :: l) := by
  induction l with
  | nil => rfl
  | cons f rest ih =>
    show List.Perm (if f.1 < e.1 then f :: insertEdge e rest else e :: f :: rest) _
    by_cases h : f.1 < e.1
    · rw [if_pos h]
      exact ((ih.cons f).trans (List.Perm.swap e f rest)).symm.symm
    · rw [if_neg h]

theorem sortEdges_perm (l : List Edge) : List.Perm (sortEdges l) l := by
  induction l with
  | nil => rfl
  | cons e rest ih =>
    show List.Perm (insertEdge e (sortEdges rest)) _
    exact (insertEdge_perm e (sortEdges rest)).trans (ih.cons e)

theorem mem_insertEdge {e f : Edge} {l : List Edge} :
    f ∈ insertEdge e l ↔ f = e ∨ f ∈ l :=
  ⟨fun h => List.mem_cons.mp ((insertEdge_perm e l).mem_iff.mp h),
   fun h => (insertEdge_perm e l).mem_iff.mpr (List.mem_cons.mpr h)⟩

theorem mem_sortEdges {f : Edge} {l : List Edge} :
    f ∈ sortEdges l ↔ f ∈ l :=
  (sortEdges_perm l).mem_iff

theorem insertEdge_sorted {e : Edge} {l : List Edge}
    (hl : l.Pairwise wle) : (insertEdge e l).Pairwise wle := by
  induction l with
  | nil => simp [insertEdge, List.pairwise_singleton]
  | cons f rest ih =>
    obtain ⟨hf, hrest⟩ := List.pairwise_cons.mp hl
    show List.Pairwise wle (if f.1 < e.1 then f :: insertEdge e rest else e :: f :: rest)
    by_cases h : f.1 < e.1
    · rw [if_pos h]
      refine List.pairwise_cons.mpr ⟨?_, ih hrest⟩
      intro g hg
      rcases mem_insertEdge.mp hg with rfl | hg2
      · exact le_of_lt h
      · exact hf g hg2
    · rw [if_neg h]
      refine List.pairwise_cons.mpr ⟨?_, hl⟩
      intro g hg
      rcases List.mem_cons.mp hg with rfl | hg2
      · exact le_of_not_lt h
      · exact le_trans (le_of_not_lt h) (hf g hg2)

theorem sortEdges_sorted (l : List Edge) : (sortEdges l).Pairwise wle := by
  induction l with
  | nil => exact List.Pairwise.nil
  | cons e rest ih => exact insertEdge_sorted ih

theorem filter_insertEdge (e : Edge) (l : List Edge) (w : Int) :
    (insertEdge e l).filter (fun f => decide (f.1 = w)) =
      if e.1 = w then e :: l.filter (fun f => decide (f.1 = w))
      else l.filter (fun f => decide (f.1 = w)) := by
  induction l with
  | nil =>
    show [e].filter (fun f => decide (f.1 = w)) = _
    by_cases h : e.1 = w
    · rw [if_pos h]
      simp [List.filter, h]
    · rw [if_neg h]
      simp [List.filter, h]
  | cons f rest ih =>
    show (if f.1 < e.1 then f :: insertEdge e rest else e :: f :: rest).filter _ = _
    by_cases h : f.1 < e.1
    · rw [if_pos h]
      by_cases hfw : f.1 = w
      · have hew : ¬ e.1 = w := by omega
        rw [if_neg hew]
        rw [if_neg hew] at ih
        simp only [List.filter_cons, decide_eq_true_eq, hfw, if_pos trivial]
        rw [ih]
      · simp only [List.filter_cons]
        rw [show decide (f.1 = w) = false from by simp [hfw]]
        simp only [Bool.false_eq_true, if_false]
        rw [ih]
    · rw [if_neg h]
      by_cases hew : e.1 = w
      · rw [if_pos hew]
        simp only [List.filter_cons]
        rw [show decide (e.1 = w) = true from by simp [hew]]
        simp
      · rw [if_neg hew]
        simp only [List.filter_cons]
        rw [show decide (e.1 = w) = false from by simp [hew]]
        simp

theorem filter_sortEdges (l : List Edge) (w : Int) :
    (sortEdges l).filter (fun f => decide (f.1 = w)) =
      l.filter (fun f => decide (f.1 = w)) := by
  induction l with
  | nil => rfl
  | cons e rest ih =>
    show (insertEdge e (sortEdges rest)).filter _ = _
    rw [filter_insertEdge]
    by_cases hew : e.1 = w
    · rw [if_pos hew, ih]
      simp only [List.filter_cons]
      rw [show decide (e.1 = w) = true from by simp [hew]]
      simp
    · rw [if_neg hew, ih]
      simp only [List.filter_cons]
      rw [show decide (e.1 = w) = false from by simp [hew]]
      simp

theorem weightSum_append (T : List Edge) (e : Edge) :
    weightSum (T ++ [e]) = weightSum T + e.1 := by
  simp [weightSum]

theorem mem_filterLe {t : Int} {es : List Edge} {f : Edge} :
    f ∈ filterLe t es ↔ f ∈ es ∧ f.1 ≤ t := by
  simp [filterLe]

theorem filterLe_eq_self {t : Int} {es : List Edge}
    (h : ∀ f ∈ es, f.1 ≤ t) : filterLe t es = es := by
  apply List.filter_eq_self.mpr
  intro f hf
  simpa using h f hf

theorem filterLe_mono_t {t1 t2 : Int} {es : List Edge} (h : t1 ≤ t2)
    {f : Edge} (hf : f ∈ filterLe t1 es) : f ∈ filterLe t2 es := by
  obtain ⟨h1, h2⟩ := mem_filterLe.mp hf
  exact mem_filterLe.mpr ⟨h1, le_trans h2 h⟩

theorem UnionFind.find2_spec {uf : UnionFind} (h : uf.WF) {u v : Nat}
    (hu : u < uf.parent.length) (hv : v < uf.parent.length) :
    (uf.find u).1 = uf.rootN u ∧
    ((uf.find u).2.find v).1 = uf.rootN v ∧
    ((uf.find u).2.find v).2.WF ∧
    ((uf.find u).2.find v).2.parent.length = uf.parent.length ∧
    (∀ x, x < uf.parent.length → ((uf.find u).2.find v).2.rootN x = uf.rootN x) ∧
    ((uf.find u).2.find v).2.setsCount = uf.setsCount := by
  have hw1 : (uf.find u).2.WF := UnionFind.find_wf h hu
  have hl1 : (uf.find u).2.parent.length = uf.parent.length :=
    UnionFind.find_parent_length h hu
  have hv1 : v < (uf.find u).2.parent.length := by rw [hl1]; exact hv
  have hw2 : ((uf.find u).2.find v).2.WF := UnionFind.find_wf hw1 hv1
  have hl2 : ((uf.find u).2.find v).2.parent.length = uf.parent.length := by
    rw [UnionFind.find_parent_length hw1 hv1, hl1]
  have hpres : ∀ x, x < uf.parent.length →
      ((uf.find u).2.find v).2.rootN x = uf.rootN x := by
    intro x hx
    rw [UnionFind.find_rootN_eq hw1 hv1 (by rw [hl1]; exact hx),
      UnionFind.find_rootN_eq h hu hx]
  refine ⟨UnionFind.find_fst h hu, ?_, hw2, hl2, hpres, ?_⟩
  · rw [UnionFind.find_fst hw1 hv1, UnionFind.find_rootN_eq h hu hv]
  · rw [UnionFind.setsCount_eq_image_rootN hw2,
      UnionFind.setsCount_eq_image_rootN h, hl2]
    congr 1
    apply Finset.image_congr
    intro x hx
    exact hpres x (Finset.mem_range.mp hx)

theorem kruskalFold_cons (n : Nat) (e : Edge) (rest : List Edge)
    (uf : UnionFind) (T : List Edge) (tw : Int) :
    kruskalFold n (e :: rest) uf T tw =
      if (uf.find e.2.1).1 ≠ ((uf.find e.2.1).2.find e.2.2).1 then
        if ((T ++ [e]).length : Int) = (n : Int) - 1 then (T ++ [e], tw + e.1)
        else kruskalFold n rest
          (((uf.find e.2.1).2.find e.2.2).2.union e.2.1 e.2.2).2
          (T ++ [e]) (tw + e.1)
      else kruskalFold n rest ((uf.find e.2.1).2.find e.2.2).2 T tw := rfl

/-- Master specification of the greedy loop: the processed prefix grows,
the invariant is maintained, and the loop either exhausts the edge list
or stops with exactly `n - 1` accepted edges. -/
theorem kruskalFold_spec {n : Nat} :
    ∀ (rest procd T : List Edge) (uf : UnionFind) (tw : Int),
      KInv n procd T uf tw →
      EdgesOk n rest →
      rest.Pairwise wle →
      (∀ f ∈ procd, ∀ g ∈ rest, f.1 ≤ g.1) →
      ∃ P R2 dl ufF,
        rest = P ++ R2 ∧
        (kruskalFold n rest uf T tw).1 = T ++ dl ∧
        dl.Sublist P ∧
        KInv n (procd ++ P) (kruskalFold n rest uf T tw).1 ufF
          (kruskalFold n rest uf T tw).2 ∧
        (R2 = [] ∨ ((kruskalFold n rest uf T tw).1.length : Int) = (n : Int) - 1) := by
  intro rest
  induction rest with
  | nil =>
    intro procd T uf tw hinv _ _ _
    have h1 : kruskalFold n [] uf T tw = (T, tw) := rfl
    refine ⟨[], [], [], uf, rfl, by rw [h1]; simp, List.Sublist.refl _, ?_,
      Or.inl rfl⟩
    rw [h1]
    simpa using hinv
  | cons e rest2 ih =>
    intro procd T uf tw hinv hokR hsortR horder
    obtain ⟨hwf, hlen, hsubT, htw, hforest, hpart, hproc, hcount⟩ := hinv
    have hu : e.2.1 < n := (hokR e (List.mem_cons_self e rest2)).1
    have hv : e.2.2 < n := (hokR e (List.mem_cons_self e rest2)).2
    have hu2 : e.2.1 < uf.parent.length := by rw [hlen]; exact hu
    have hv2 : e.2.2 < uf.parent.length := by rw [hlen]; exact hv
    obtain ⟨hfst1, hfst2, hwf2, hlen2, hpres2, hsc2⟩ :=
      UnionFind.find2_spec hwf hu2 hv2
    have hTwle : ∀ f ∈ T, f.1 ≤ e.1 := by
      intro f hf
      exact horder f (hsubT.subset hf) e (List.mem_cons_self e rest2)
    have hokR2 : EdgesOk n rest2 := fun f hf => hokR f (List.mem_cons_of_mem _ hf)
    have hsortR2 : rest2.Pairwise wle := (List.pairwise_cons.mp hsortR).2
    have hhead : ∀ g ∈ rest2, e.1 ≤ g.1 := (List.pairwise_cons.mp hsortR).1
    have horder2 : ∀ f ∈ procd ++ [e], ∀ g ∈ rest2, f.1 ≤ g.1 := by
      intro f hf g hg
      rcases List.mem_append.mp hf with hf | hf
      · exact horder f hf g (List.mem_cons_of_mem _ hg)
      · have hfe : f = e := by simpa using hf
        subst hfe
        exact hhead g hg
    by_cases hne : uf.rootN e.2.1 = uf.rootN e.2.2
    · -- the edge is rejected: the roots coincide
      have hcond : ¬ ((uf.find e.2.1).1 ≠ ((uf.find e.2.1).2.find e.2.2).1) := by
        rw [hfst1, hfst2]
        exact fun hc => hc hne
      rw [kruskalFold_cons, if_neg hcond]
      have hinv2 : KInv n (procd ++ [e]) T ((uf.find e.2.1).2.find e.2.2).2 tw := by
        refine ⟨hwf2, by rw [hlen2, hlen],
          hsubT.trans (List.sublist_append_left procd [e]), htw, hforest, ?_, ?_, ?_⟩
        · intro x y hx hy
          rw [hpres2 x (by rw [hlen]; exact hx), hpres2 y (by rw [hlen]; exact hy)]
          exact hpart x y hx hy
        · intro f hf
          rcases List.mem_append.mp hf with hf | hf
          · exact hproc f hf
          · have hfe : f = e := by simpa using hf
            subst hfe
            rw [filterLe_eq_self hTwle]
            exact (hpart _ _ hu hv).mp hne
        · rw [hsc2]
          exact hcount
      obtain ⟨P, R2, dl, ufF, hPR, hres1, hdlP, hinvF, hdisj⟩ :=
        ih (procd ++ [e]) T ((uf.find e.2.1).2.find e.2.2).2 tw hinv2 hokR2
          hsortR2 horder2
      refine ⟨e :: P, R2, dl, ufF, by rw [hPR]; rfl, hres1,
        List.Sublist.cons e hdlP, ?_, hdisj⟩
      have hassoc : procd ++ e :: P = (procd ++ [e]) ++ P := by simp
      rw [hassoc]
      exact hinvF
    · -- the edge is accepted
      have hcond : (uf.find e.2.1).1 ≠ ((uf.find e.2.1).2.find e.2.2).1 := by
        rw [hfst1, hfst2]
        exact hne
      have hne2 : (((uf.find e.2.1).2.find e.2.2).2).rootN e.2.1 ≠
          (((uf.find e.2.1).2.find e.2.2).2).rootN e.2.2 := by
        rw [hpres2 _ (by rw [hlen]; exact hu), hpres2 _ (by rw [hlen]; exact hv)]
        exact hne
      obtain ⟨s, d, hsd, htrue, hwf3, hlen3, hform3⟩ :=
        UnionFind.union_true_spec hwf2 (by rw [hlen2, hlen]; exact hu)
          (by rw [hlen2, hlen]; exact hv) hne2
      have hsd2 : (s = uf.rootN e.2.1 ∧ d = uf.rootN e.2.2) ∨
          (s = uf.rootN e.2.2 ∧ d = uf.rootN e.2.1) := by
        rcases hsd with ⟨h1, h2⟩ | ⟨h1, h2⟩
        · exact Or.inl ⟨by rw [h1, hpres2 _ (by rw [hlen]; exact hu)],
            by rw [h2, hpres2 _ (by rw [hlen]; exact hv)]⟩
        · exact Or.inr ⟨by rw [h1, hpres2 _ (by rw [hlen]; exact hv)],
            by rw [h2, hpres2 _ (by rw [hlen]; exact hu)]⟩
      have hform4 : ∀ x, x < n →
          ((((uf.find e.2.1).2.find e.2.2).2.union e.2.1 e.2.2).2).rootN x =
            if uf.rootN x = s then d else uf.rootN x := by
        intro x hx
        rw [hform3 x (by rw [hlen2, hlen]; exact hx),
          hpres2 x (by rw [hlen]; exact hx)]
      have hsetc := UnionFind.union_true_setsCount hwf2
        (by rw [hlen2, hlen]; exact hu) (by rw [hlen2, hlen]; exact hv) hne2
      rw [hsc2] at hsetc
      have hnc : ¬ connectedIn T e.2.1 e.2.2 :=
        fun hc => hne ((hpart _ _ hu hv).mpr hc)
      have hforest2 : IsForest (T ++ [e]) := hforest.append_single hnc
      have hmemT2 : ∀ f ∈ T, f ∈ T ++ [e] :=
        fun f hf => List.mem_append.mpr (Or.inl hf)
      have hedgeT2 : connectedIn (T ++ [e]) e.2.1 e.2.2 :=
        connectedIn_of_mem (List.mem_append.mpr (Or.inr (List.mem_singleton_self e)))
      have hpart2 : ∀ x y, x < n → y < n →
          (((((uf.find e.2.1).2.find e.2.2).2.union e.2.1 e.2.2).2).rootN x =
            ((((uf.find e.2.1).2.find e.2.2).2.union e.2.1 e.2.2).2).rootN y ↔
          connectedIn (T ++ [e]) x y) := by
        intro x y hx hy
        rw [hform4 x hx, hform4 y hy, redirect_eq_iff]
        constructor
        · intro hcase
          rcases hcase with hxy | ⟨hxs, hys⟩
          · exact connectedIn_mono hmemT2 ((hpart x y hx hy).mp hxy)
          · have hlink : ∀ z, z < n → (uf.rootN z = s ∨ uf.rootN z = d) →
                connectedIn (T ++ [e]) z e.2.1 := by
              intro z hz hzs
              rcases hsd2 with ⟨hs1, hd1⟩ | ⟨hs1, hd1⟩
              · rcases hzs with hzs | hzs
                · exact connectedIn_mono hmemT2
                    ((hpart z _ hz hu).mp (hzs.trans hs1))
                · exact connectedIn_trans
                    (connectedIn_mono hmemT2 ((hpart z _ hz hv).mp (hzs.trans hd1)))
                    (connectedIn_symm hedgeT2)
              · rcases hzs with hzs | hzs
                · exact connectedIn_trans
                    (connectedIn_mono hmemT2 ((hpart z _ hz hv).mp (hzs.trans hs1)))
                    (connectedIn_symm hedgeT2)
                · exact connectedIn_mono hmemT2
                    ((hpart z _ hz hu).mp (hzs.trans hd1))
            exact connectedIn_trans (hlink x hx hxs)
              (connectedIn_symm (hlink y hy hys))
        · intro hconn
          rcases connectedIn_append_single hconn with hc | ⟨h1, h2⟩ | ⟨h1, h2⟩
          · exact Or.inl ((hpart x y hx hy).mpr hc)
          · have hrx : uf.rootN x = uf.rootN e.2.1 := (hpart x _ hx hu).mpr h1
            have hry : uf.rootN y = uf.rootN e.2.2 :=
              ((hpart _ y hv hy).mpr h2).symm
            refine Or.inr ⟨?_, ?_⟩
            · rcases hsd2 with ⟨hs1, -⟩ | ⟨-, hd1⟩
              · exact Or.inl (hrx.trans hs1.symm)
              · exact Or.inr (hrx.trans hd1.symm)
            · rcases hsd2 with ⟨-, hd1⟩ | ⟨hs1, -⟩
              · exact Or.inr (hry.trans hd1.symm)
              · exact Or.inl (hry.trans hs1.symm)
          · have hrx : uf.rootN x = uf.rootN e.2.2 := (hpart x _ hx hv).mpr h1
            have hry : uf.rootN y = uf.rootN e.2.1 :=
              ((hpart _ y hu hy).mpr h2).symm
            refine Or.inr ⟨?_, ?_⟩
            · rcases hsd2 with ⟨-, hd1⟩ | ⟨hs1, -⟩
              · exact Or.inr (hrx.trans hd1.symm)
              · exact Or.inl (hrx.trans hs1.symm)
            · rcases hsd2 with ⟨hs1, -⟩ | ⟨-, hd1⟩
              · exact Or.inl (hry.trans hs1.symm)
              · exact Or.inr (hry.trans hd1.symm)
      have hproc2 : ∀ f ∈ procd ++ [e],
          connectedIn (filterLe f.1 (T ++ [e])) f.2.1 f.2.2 := by
        intro f hf
        rcases List.mem_append.mp hf with hf | hf
        · refine connectedIn_mono ?_ (hproc f hf)
          intro g hg
          obtain ⟨hg1, hg2⟩ := mem_filterLe.mp hg
          exact mem_filterLe.mpr ⟨hmemT2 g hg1, hg2⟩
        · have hfe : f = e := by simpa using hf
          subst hfe
          have hall : ∀ g ∈ T ++ [f], g.1 ≤ f.1 := by
            intro g hg
            rcases List.mem_append.mp hg with hg | hg
            · exact hTwle g hg
            · have : g = f := by simpa using hg
              rw [this]
          rw [filterLe_eq_self hall]
          exact hedgeT2
      have hinv3 : KInv n (procd ++ [e]) (T ++ [e])
          ((((uf.find e.2.1).2.find e.2.2).2.union e.2.1 e.2.2).2) (tw + e.1) := by
        refine ⟨hwf3, by rw [hlen3, hlen2, hlen],
          hsubT.append (List.Sublist.refl [e]),
          by rw [htw, weightSum_append], hforest2, hpart2, hproc2, ?_⟩
        rw [List.length_append, List.length_singleton]
        omega
      rw [kruskalFold_cons, if_pos hcond]
      by_cases hearly : ((T ++ [e]).length : Int) = (n : Int) - 1
      · rw [if_pos hearly]
        exact ⟨[e], rest2, [e], _, rfl, rfl, List.Sublist.refl [e], hinv3,
          Or.inr hearly⟩
      · rw [if_neg hearly]
        obtain ⟨P, R2, dl, ufF, hPR, hres1, hdlP, hinvF, hdisj⟩ :=
          ih (procd ++ [e]) (T ++ [e])
            ((((uf.find e.2.1).2.find e.2.2).2.union e.2.1 e.2.2).2) (tw + e.1)
            hinv3 hokR2 hsortR2 horder2
        refine ⟨e :: P, R2, e :: dl, ufF, by rw [hPR]; rfl, ?_,
          List.Sublist.cons₂ e hdlP, ?_, hdisj⟩
        · rw [hres1]
          simp
        · have hassoc : procd ++ e :: P = (procd ++ [e]) ++ P := by simp
          rw [hassoc]
          exact hinvF

theorem foldr_min_le {l : List Int} {a w : Int} (hw : w ∈ l) :
    List.foldr min a l ≤ w := by
  induction l with
  | nil => simp at hw
  | cons x xs ih =>
    rcases List.mem_cons.mp hw with rfl | hw2
    · exact min_le_left _ _
    · exact le_trans (min_le_right _ _) (ih hw2)

theorem le_foldr_max {l : List Int} {a w : Int} (hw : w ∈ l) :
    w ≤ List.foldr max a l := by
  induction l with
  | nil => simp at hw
  | cons x xs ih =>
    rcases List.mem_cons.mp hw with rfl | hw2
    · exact le_max_left _ _
    · exact le_trans (ih hw2) (le_max_right _ _)

theorem count_thresholds {L U w : Int} (h1 : L ≤ w) (h2 : w ≤ U) :
    ((((Finset.Icc L (U - 1)).filter (fun t => t < w)).card : Int)) = w - L := by
  have hset : (Finset.Icc L (U - 1)).filter (fun t => t < w) =
      Finset.Icc L (w - 1) := by
    apply Finset.ext
    intro t
    simp only [Finset.mem_filter, Finset.mem_Icc]
    omega
  rw [hset, Int.card_Icc]
  rw [Int.toNat_of_nonneg (by omega)]
  omega

theorem weightSum_formula (L U : Int) :
    ∀ X : List Edge, (∀ e ∈ X, L ≤ e.1 ∧ e.1 ≤ U) →
      weightSum X = (X.length : Int) * L +
        Finset.sum (Finset.Icc L (U - 1))
          (fun t => ((X.filter (fun e => decide (t < e.1))).length : Int)) := by
  intro X
  induction X with
  | nil =>
    intro _
    simp [weightSum]
  | cons e X2 ih =>
    intro hb
    have hbe := hb e (List.mem_cons_self e X2)
    have hIH := ih (fun f hf => hb f (List.mem_cons_of_mem _ hf))
    have hcons : ∀ t : Int,
        (((e :: X2).filter (fun f => decide (t < f.1))).length : Int) =
          (if t < e.1 then (1 : Int) else 0) +
            ((X2.filter (fun f => decide (t < f.1))).length : Int) := by
      intro t
      by_cases ht : t < e.1
      · rw [if_pos ht]
        simp [List.filter_cons, ht]
        omega
      · rw [if_neg ht]
        simp [List.filter_cons, ht]
    have hsplit : Finset.sum (Finset.Icc L (U - 1))
        (fun t => (((e :: X2).filter (fun f => decide (t < f.1))).length : Int)) =
        Finset.sum (Finset.Icc L (U - 1))
          (fun t => (if t < e.1 then (1 : Int) else 0)) +
        Finset.sum (Finset.Icc L (U - 1))
          (fun t => ((X2.filter (fun f => decide (t < f.1))).length : Int)) := by
      rw [← Finset.sum_add_distrib]
      exact Finset.sum_congr rfl (fun t _ => hcons t)
    have hboole : Finset.sum (Finset.Icc L (U - 1))
        (fun t => (if t < e.1 then (1 : Int) else 0)) = e.1 - L := by
      rw [Finset.sum_boole]
      exact count_thresholds hbe.1 hbe.2
    have hws : weightSum (e :: X2) = e.1 + weightSum X2 := by
      simp [weightSum]
    rw [hws, hIH, hsplit, hboole]
    simp only [List.length_cons]
    push_cast
    ring

theorem length_filterLe_add (t : Int) (X : List Edge) :
    (filterLe t X).length +
      (X.filter (fun e => decide (t < e.1))).length = X.length := by
  induction X with
  | nil => rfl
  | cons e X2 ih =>
    by_cases h : e.1 ≤ t
    · have h2 : ¬ (t < e.1) := by omega
      simp only [filterLe, List.filter_cons] at ih ⊢
      simp [h, h2]
      omega
    · have h2 : t < e.1 := by omega
      simp only [filterLe, List.filter_cons] at ih ⊢
      simp [h, h2]
      omega

/-- Threshold-count majorisation: if every weight-prefix of `S` is no
larger than the corresponding prefix of `T` and the lists have equal
length, the total weight of `T` is at most that of `S`. -/
theorem weightSum_le_of_counts {T S : List Edge} (hlen : T.length = S.length)
    (hcnt : ∀ t : Int, (filterLe t S).length ≤ (filterLe t T).length) :
    weightSum T ≤ weightSum S := by
  have hbT : ∀ e ∈ T,
      List.foldr min 0 ((T ++ S).map (fun f => f.1)) ≤ e.1 ∧
      e.1 ≤ List.foldr max 0 ((T ++ S).map (fun f => f.1)) := by
    intro e he
    have hmem : e.1 ∈ (T ++ S).map (fun f => f.1) :=
      List.mem_map.mpr ⟨e, List.mem_append.mpr (Or.inl he), rfl⟩
    exact ⟨foldr_min_le hmem, le_foldr_max hmem⟩
  have hbS : ∀ e ∈ S,
      List.foldr min 0 ((T ++ S).map (fun f => f.1)) ≤ e.1 ∧
      e.1 ≤ List.foldr max 0 ((T ++ S).map (fun f => f.1)) := by
    intro e he
    have hmem : e.1 ∈ (T ++ S).map (fun f => f.1) :=
      List.mem_map.mpr ⟨e, List.mem_append.mpr (Or.inr he), rfl⟩
    exact ⟨foldr_min_le hmem, le_foldr_max hmem⟩
  rw [weightSum_formula _ _ T hbT, weightSum_formula _ _ S hbS, hlen]
  refine add_le_add_left (Finset.sum_le_sum ?_) _
  intro t _
  have h1 := length_filterLe_add t T
  have h2 := length_filterLe_add t S
  have h3 := hcnt t
  have h4 := hlen
  have : (T.filter (fun e => decide (t < e.1))).length ≤
      (S.filter (fun e => decide (t < e.1))).length := by omega
  exact_mod_cast this

theorem conn_lift {es T : List Edge}
    (h : ∀ f ∈ es, connectedIn T f.2.1 f.2.2) :
    ∀ x y, connectedIn es x y → connectedIn T x y := by
  intro x y hxy
  induction hxy with
  | refl => exact connectedIn_refl x
  | tail h1 h2 ih =>
    obtain ⟨f, hf, hor⟩ := h2
    rcases hor with ⟨hb, hc⟩ | ⟨hb, hc⟩
    · exact connectedIn_trans ih (hb ▸ hc ▸ h f hf)
    · exact connectedIn_trans ih (connectedIn_symm (hb ▸ hc ▸ h f hf))

theorem UnionFind.rootN_all_eq_of_setsCount_one {uf : UnionFind} {n : Nat}
    (h : uf.WF) (hlen : uf.parent.length = n) (hsc : uf.setsCount = 1) :
    ∀ x y, x < n → y < n → uf.rootN x = uf.rootN y := by
  intro x y hx hy
  rw [UnionFind.setsCount_eq_image_rootN h, hlen] at hsc
  have hxmem : uf.rootN x ∈ (Finset.range n).image uf.rootN :=
    Finset.mem_image.mpr ⟨x, Finset.mem_range.mpr hx, rfl⟩
  have hymem : uf.rootN y ∈ (Finset.range n).image uf.rootN :=
    Finset.mem_image.mpr ⟨y, Finset.mem_range.mpr hy, rfl⟩
  exact Finset.card_le_one.mp (by omega) _ hxmem _ hymem

theorem connectedIn_lt {n : Nat} {es : List Edge} (hok : EdgesOk n es)
    {x y : Nat} (h : connectedIn es x y) (hne : x ≠ y) : y < n := by
  induction h with
  | refl => exact absurd rfl hne
  | tail h1 h2 ih =>
    obtain ⟨f, hf, hor⟩ := h2
    rcases hor with ⟨-, hc⟩ | ⟨hc, -⟩
    · rw [← hc]
      exact (hok f hf).2
    · rw [← hc]
      exact (hok f hf).1

/-- Master specification of `kruskal_mst` for valid inputs: weight
accounting, acyclicity, edge provenance, the component-count equation,
spanning, and minimality over all spanning forests. -/
theorem kruskal_mst_spec {n : Nat} {edges : List Edge} (hok : EdgesOk n edges) :
    (kruskal_mst n edges).2 = weightSum (kruskal_mst n edges).1 ∧
    IsForest (kruskal_mst n edges).1 ∧
    (∀ e ∈ (kruskal_mst n edges).1, e ∈ edges) ∧
    (kruskal_mst n edges).1.length + numComponents n edges = n ∧
    (∀ x y, x < n → y < n → connectedIn edges x y →
      connectedIn (kruskal_mst n edges).1 x y) ∧
    (∀ S, SpanningForest n edges S →
      weightSum (kruskal_mst n edges).1 ≤ weightSum S) := by
  have hokS : EdgesOk n (sortEdges edges) := by
    intro e he
    exact hok e (mem_sortEdges.mp he)
  have hsorted : (sortEdges edges).Pairwise wle := sortEdges_sorted edges
  have hinv0 : KInv n [] [] (UnionFind.init n) 0 := by
    refine ⟨UnionFind.init_wf n, UnionFind.init_parent_length n,
      List.Sublist.refl [], rfl, isForest_nil, ?_, ?_, ?_⟩
    · intro x y _ _
      rw [UnionFind.init_rootN, UnionFind.init_rootN, connectedIn_nil]
    · intro e he
      simp at he
    · rw [setsCount_init]
      simp
  obtain ⟨P, R2, dl, ufF, hPR, hres1, hdlP, hinvF, hdisj⟩ :=
    kruskalFold_spec (sortEdges edges) [] [] (UnionFind.init n) 0 hinv0 hokS
      hsorted (by intro f hf; simp at hf)
  have hkr : kruskal_mst n edges =
      kruskalFold n (sortEdges edges) (UnionFind.init n) [] 0 := rfl
  obtain ⟨hwfF, hlenF, hsubF, htwF, hforestF, hpartF, hprocF, hcountF⟩ := hinvF
  have hmemsub : ∀ e ∈ (kruskal_mst n edges).1, e ∈ edges := by
    intro e he
    rw [hkr] at he
    have h1 : e ∈ [] ++ dl := hres1 ▸ he
    have h2 : e ∈ P := hdlP.subset (by simpa using h1)
    have h3 : e ∈ sortEdges edges := by
      rw [hPR]
      exact List.mem_append.mpr (Or.inl h2)
    exact mem_sortEdges.mp h3
  have hTokn : EdgesOk n (kruskal_mst n edges).1 :=
    fun e he => hok e (hmemsub e he)
  -- spanning: everything `edges` connects, the result connects
  have hspan : ∀ x y, x < n → y < n → connectedIn edges x y →
      connectedIn (kruskal_mst n edges).1 x y := by
    rcases hdisj with hR2 | hearly
    · -- the whole sorted list was processed
      have hPall : P = sortEdges edges := by rw [hPR, hR2, List.append_nil]
      intro x y hx hy hconn
      rw [hkr]
      refine conn_lift ?_ x y hconn
      intro f hf
      have hfP : f ∈ P := by rw [hPall]; exact mem_sortEdges.mpr hf
      refine connectedIn_mono ?_ (hprocF f hfP)
      intro g hg
      exact (mem_filterLe.mp hg).1
    · -- early termination: the accepted forest already spans everything
      have hlr : (kruskalFold n (sortEdges edges) (UnionFind.init n) [] 0).1.length
          = n - 1 ∧ 1 ≤ n := by omega
      have hsc1 : ufF.setsCount = 1 := by
        rw [hkr] at *
        omega
      intro x y hx hy _
      rw [hkr]
      refine (hpartF x y hx hy).mp ?_
      exact UnionFind.rootN_all_eq_of_setsCount_one hwfF hlenF hsc1 x y hx hy
  have hconnTf_iff : ∀ x y, x < n → y < n →
      (connectedIn edges x y ↔ connectedIn (kruskal_mst n edges).1 x y) := by
    intro x y hx hy
    constructor
    · exact hspan x y hx hy
    · exact connectedIn_mono hmemsub
  have hforK : IsForest (kruskal_mst n edges).1 := by
    rw [hkr]
    exact hforestF
  have htwK : (kruskal_mst n edges).2 = weightSum (kruskal_mst n edges).1 := by
    rw [hkr]
    exact htwF
  -- the final union-find state counts the components of the input graph
  obtain ⟨hwfE, hlenE, hiffE⟩ := ufOfEdges_spec hok
  rw [← hkr] at hpartF
  have hscF : ufF.setsCount = numComponents n edges := by
    show ufF.setsCount = (ufOfEdges n edges).setsCount
    refine UnionFind.setsCount_congr hwfE hwfF (by rw [hlenF, hlenE]) ?_
    intro x y hx hy
    rw [hlenE] at hx hy
    rw [hiffE x y, hpartF x y hx hy]
    exact hconnTf_iff x y hx hy
  have hcount : (kruskal_mst n edges).1.length + numComponents n edges = n := by
    rw [hkr]
    omega
  -- every edge of weight at most `t` has its endpoints connected through
  -- accepted edges of weight at most `t`
  have hthresh : ∀ t : Int, ∀ f ∈ filterLe t edges,
      connectedIn (filterLe t (kruskal_mst n edges).1) f.2.1 f.2.2 := by
    intro t f hf
    obtain ⟨hfe, hft⟩ := mem_filterLe.mp hf
    have hfsorted : f ∈ P ++ R2 := by
      rw [← hPR]
      exact mem_sortEdges.mpr hfe
    rcases List.mem_append.mp hfsorted with hfP | hfR2
    · have h1 := hprocF f (by simpa using hfP)
      rw [← hkr] at h1
      refine connectedIn_mono ?_ h1
      intro g hg
      exact filterLe_mono_t hft hg
    · -- unprocessed edge: the loop stopped early with a spanning tree
      rcases hdisj with hR2 | hearly
      · rw [hR2] at hfR2
        simp at hfR2
      · have hconnT : connectedIn (kruskal_mst n edges).1 f.2.1 f.2.2 :=
          hspan f.2.1 f.2.2 (hok f hfe).1 (hok f hfe).2 (connectedIn_of_mem hfe)
        have hallle : ∀ g ∈ (kruskal_mst n edges).1, g.1 ≤ t := by
          intro g hg
          rw [hkr] at hg
          have hgP : g ∈ P := by
            have := hsubF.subset hg
            simpa using this
          have hwle : wle g f :=
            ((List.pairwise_append.mp (hPR ▸ hsorted)).2.2) g hgP f hfR2
          exact le_trans hwle hft
        rw [filterLe_eq_self hallle]
        exact hconnT
  -- minimality over spanning forests via threshold counting
  have hmin : ∀ S, SpanningForest n edges S →
      weightSum (kruskal_mst n edges).1 ≤ weightSum S := by
    intro S hS
    obtain ⟨hSsub, hSforest, hSspan⟩ := hS
    have hSok : EdgesOk n S := fun e he => hok e (hSsub e he)
    have hcS : numComponents n S = numComponents n edges := by
      refine le_antisymm ?_ ?_
      · refine numComponents_le_of_imp hok hSok ?_
        intro x y h
        by_cases hxy : x = y
        · subst hxy
          exact connectedIn_refl x
        · have hy2 : y < n := connectedIn_lt hok h hxy
          have hx2 : x < n := connectedIn_lt hok (connectedIn_symm h) (Ne.symm hxy)
          exact hSspan x y hx2 hy2 h
      · exact numComponents_le_of_imp hSok hok
          (fun x y h => connectedIn_mono hSsub h)
    have hlenTS : (kruskal_mst n edges).1.length = S.length := by
      have h1 := forest_count hSforest hSok
      rw [hcS] at h1
      omega
    have hcnt : ∀ t : Int,
        (filterLe t S).length ≤ (filterLe t (kruskal_mst n edges).1).length := by
      intro t
      have hSt_forest : IsForest (filterLe t S) :=
        hSforest.sublist (List.filter_sublist _)
      have hSt_ok : EdgesOk n (filterLe t S) :=
        fun e he => hSok e (mem_filterLe.mp he).1
      have hTt_forest : IsForest (filterLe t (kruskal_mst n edges).1) :=
        hforK.sublist (List.filter_sublist _)
      have hTt_ok : EdgesOk n (filterLe t (kruskal_mst n edges).1) :=
        fun e he => hTokn e (mem_filterLe.mp he).1
      have hEt_ok : EdgesOk n (filterLe t edges) :=
        fun e he => hok e (mem_filterLe.mp he).1
      have h1 := forest_count hSt_forest hSt_ok
      have h2 := forest_count hTt_forest hTt_ok
      have h3 : numComponents n (filterLe t edges) ≤
          numComponents n (filterLe t S) := by
        refine numComponents_le_of_imp hSt_ok hEt_ok ?_
        intro x y h
        refine connectedIn_mono ?_ h
        intro g hg
        obtain ⟨hg1, hg2⟩ := mem_filterLe.mp hg
        exact mem_filterLe.mpr ⟨hSsub g hg1, hg2⟩
      have h4 : numComponents n (filterLe t (kruskal_mst n edges).1) ≤
          numComponents n (filterLe t edges) := by
        refine numComponents_le_of_imp hEt_ok hTt_ok ?_
        exact conn_lift (hthresh t)
      omega
    exact weightSum_le_of_counts hlenTS hcnt
  exact ⟨htwK, hforK, hmemsub, hcount, hspan, hmin⟩

theorem pyFindAux_succ (p : List Nat) (node : Int) (fuel : Nat) :
    pyFindAux p node (fuel + 1) =
      (pyGet p node).bind (fun q =>
        if (q : Int) = node then some (q, p)
        else
          (pyFindAux p (q : Int) fuel).bind (fun rp =>
            (pySet rp.2 node rp.1).bind (fun p2 =>
              (pyGet p2 node).map (fun ret => (ret, p2))))) := rfl

theorem pyIdx_out {len : Nat} {i : Int}
    (h : (len : Int) ≤ i ∨ i < -(len : Int)) : pyIdx len i = none := by
  unfold pyIdx
  rw [if_neg (by omega), if_neg (by omega)]

theorem pyIdx_in {len : Nat} {i : Int} (h1 : 0 ≤ i) (h2 : i < (len : Int)) :
    pyIdx len i = some i.toNat := by
  unfold pyIdx
  rw [if_pos ⟨h1, h2⟩]

theorem pyIdx_negIdx {len : Nat} {i : Int} (h1 : -(len : Int) ≤ i) (h2 : i < 0) :
    pyIdx len i = some (((len : Int) + i).toNat) := by
  unfold pyIdx
  rw [if_neg (by omega), if_pos ⟨h1, h2⟩]

/-- On a freshly constructed parent array, `find` under Python indexing
fails exactly on arguments outside `[-n, n)`: arguments in `[-n, 0)` are
aliased by Python's negative indexing and succeed. -/
theorem pyFind_init_fail_iff (n : Nat) (node : Int) :
    pyFind (UnionFind.init n).parent node = none ↔
      ((n : Int) ≤ node ∨ node < -(n : Int)) := by
  have hlen : (List.range n).length = n := List.length_range n
  show pyFindAux (List.range n) node ((List.range n).length + 1) = none ↔ _
  rw [hlen]
  by_cases hA : (n : Int) ≤ node ∨ node < -(n : Int)
  · refine iff_of_true ?_ hA
    have hg : pyGet (List.range n) node = none := by
      unfold pyGet
      rw [hlen, pyIdx_out hA]
      rfl
    rw [pyFindAux_succ, hg]
    rfl
  · refine iff_of_false ?_ hA
    have h1 : node < (n : Int) := by omega
    have h2 : -(n : Int) ≤ node := by omega
    by_cases hpos : 0 ≤ node
    · have hg : pyGet (List.range n) node = some node.toNat := by
        unfold pyGet
        rw [hlen, pyIdx_in hpos h1]
        show some ((List.range n).getD node.toNat 0) = some node.toNat
        rw [getD_range (show node.toNat < n by omega)]
      have hqe : (node.toNat : Int) = node := Int.toNat_of_nonneg hpos
      intro hcon
      rw [pyFindAux_succ, hg] at hcon
      simp only [Option.some_bind] at hcon
      rw [if_pos hqe] at hcon
      exact Option.noConfusion hcon
    · have hneg : node < 0 := by omega
      have hn1 : 1 ≤ n := by omega
      have hk0 : (0 : Int) ≤ (n : Int) + node := by omega
      have hkc : ((((n : Int) + node).toNat : Int)) = (n : Int) + node :=
        Int.toNat_of_nonneg hk0
      have hk2 : ((n : Int) + node).toNat < n := by omega
      have hg : pyGet (List.range n) node = some ((n : Int) + node).toNat := by
        unfold pyGet
        rw [hlen, pyIdx_negIdx h2 hneg]
        show some ((List.range n).getD ((n : Int) + node).toNat 0) = _
        rw [getD_range hk2]
      have hqne : ¬ ((((n : Int) + node).toNat : Int) = node) := by omega
      have hinner : ∀ f, pyFindAux (List.range n)
          ((((n : Int) + node).toNat : Nat) : Int) (f + 1) =
          some (((n : Int) + node).toNat, List.range n) := by
        intro f
        have hidxk : pyIdx n ((((n : Int) + node).toNat : Nat) : Int) =
            some ((n : Int) + node).toNat := by
          rw [pyIdx_in (by omega) (by omega), Int.toNat_natCast]
        have hgk : pyGet (List.range n) ((((n : Int) + node).toNat : Nat) : Int) =
            some ((n : Int) + node).toNat := by
          unfold pyGet
          rw [hlen, hidxk]
          show some ((List.range n).getD ((n : Int) + node).toNat 0) = _
          rw [getD_range hk2]
        rw [pyFindAux_succ, hgk]
        simp only [Option.some_bind]
        simp
      have hinner2 : pyFindAux (List.range n)
          ((((n : Int) + node).toNat : Nat) : Int) n =
          some (((n : Int) + node).toNat, List.range n) := by
        have := hinner (n - 1)
        rw [show n - 1 + 1 = n from by omega] at this
        exact this
      have hset : pySet (List.range n) node ((n : Int) + node).toNat =
          some ((List.range n).set ((n : Int) + node).toNat
            ((n : Int) + node).toNat) := by
        unfold pySet
        rw [hlen, pyIdx_negIdx h2 hneg]
        rfl
      have hg2 : pyGet ((List.range n).set ((n : Int) + node).toNat
          ((n : Int) + node).toNat) node = some ((n : Int) + node).toNat := by
        unfold pyGet
        rw [List.length_set, hlen, pyIdx_negIdx h2 hneg]
        show some (((List.range n).set ((n : Int) + node).toNat
          ((n : Int) + node).toNat).getD ((n : Int) + node).toNat 0) = _
        rw [getD_set_self (by rw [hlen]; exact hk2)]
      intro hcon
      rw [pyFindAux_succ, hg] at hcon
      simp only [Option.some_bind] at hcon
      rw [if_neg hqne, hinner2] at hcon
      simp only [Option.some_bind] at hcon
      rw [hset] at hcon
      simp only [Option.some_bind] at hcon
      rw [hg2] at hcon
      exact Option.noConfusion hcon

theorem UnionFind.union_equal_rank_spec {uf : UnionFind} (h : uf.WF) {a b : Nat}
    (ha : a < uf.parent.length) (hb : b < uf.parent.length)
    (hne : uf.rootN a ≠ uf.rootN b)
    (hrk : uf.rank.getD (uf.rootN a) 0 = uf.rank.getD (uf.rootN b) 0) :
    (uf.union a b).2.parent.getD (uf.rootN b) (uf.rootN b) = uf.rootN a ∧
    (uf.union a b).2.rank.getD (uf.rootN a) 0 =
      uf.rank.getD (uf.rootN a) 0 + 1 := by
  have h1 : (uf.find a).1 = uf.rootN a := find_fst h ha
  have hw1 : (uf.find a).2.WF := find_wf h ha
  have hl1 : (uf.find a).2.parent.length = uf.parent.length :=
    find_parent_length h ha
  have hb1 : b < (uf.find a).2.parent.length := by rw [hl1]; exact hb
  have h2 : ((uf.find a).2.find b).1 = uf.rootN b := by
    rw [find_fst hw1 hb1, find_rootN_eq h ha hb]
  have hl2 : ((uf.find a).2.find b).2.parent.length = uf.parent.length := by
    rw [find_parent_length hw1 hb1, hl1]
  have hrk2 : ((uf.find a).2.find b).2.rank = uf.rank := rfl
  have hcond : (uf.find a).1 ≠ ((uf.find a).2.find b).1 := by
    rw [h1, h2]; exact hne
  have hc1 : ¬ (((uf.find a).2.find b).2.rank.getD (uf.find a).1 0 <
      ((uf.find a).2.find b).2.rank.getD ((uf.find a).2.find b).1 0) := by
    rw [hrk2, h1, h2]
    omega
  have hc2 : ¬ (((uf.find a).2.find b).2.rank.getD ((uf.find a).2.find b).1 0 <
      ((uf.find a).2.find b).2.rank.getD (uf.find a).1 0) := by
    rw [hrk2, h1, h2]
    omega
  have hu : uf.union a b = (true,
      UnionFind.mk (((uf.find a).2.find b).2.parent.set
        (uf.rootN b) (uf.rootN a))
        (uf.rank.set (uf.rootN a) (uf.rank.getD (uf.rootN a) 0 + 1))) := by
    rw [union_unfold, if_neg hcond, if_neg hc1, if_neg hc2, h1, h2, hrk2]
  rw [hu]
  constructor
  · exact getD_set_self (by rw [hl2]; exact rootN_lt h hb)
  · exact getD_set_self (by rw [h.rank_len]; exact rootN_lt h ha)

theorem pathAux_self_mem {p : List Nat} {x : Nat} (hroot : p.getD x x ≠ x)
    (fuel : Nat) : x ∈ pathAux p x (fuel + 1) := by
  rw [pathAux_succ, if_neg hroot]
  exact List.mem_cons_self x _

/-- C1: for a connected input graph on `n ≥ 1` vertices with endpoints in
range, `kruskal_mst` returns exactly `n - 1` edges, its returned total
weight is the weight of the returned tree, the returned tree is a
spanning tree of the input graph, and its total weight is minimal over
all spanning trees (spanning forests of a connected graph). -/
theorem C1_kruskal_connected_min_spanning_tree {n : Nat} {edges : List Edge}
    (hn : 1 ≤ n) (hok : EdgesOk n edges)
    (hconn : ∀ x y, x < n → y < n → connectedIn edges x y) :
    (kruskal_mst n edges).1.length = n - 1 ∧
    (kruskal_mst n edges).2 = weightSum (kruskal_mst n edges).1 ∧
    SpanningForest n edges (kruskal_mst n edges).1 ∧
    ∀ S, SpanningForest n edges S →
      (kruskal_mst n edges).2 ≤ weightSum S := by
  obtain ⟨htw, hforest, hmem, hcount, hspan, hmin⟩ := kruskal_mst_spec hok
  have hc1 : numComponents n edges = 1 := numComponents_eq_one hn hok hconn
  refine ⟨by omega, htw, ⟨hmem, hforest, hspan⟩, ?_⟩
  intro S hS
  rw [htw]
  exact hmin S hS

theorem C1_kruskal_connected_min_spanning_tree_witness :
    ((1 : Nat) ≤ 2 ∧ EdgesOk 2 [((5 : Int), 0, 1)] ∧
      (∀ x y, x < 2 → y < 2 → connectedIn [((5 : Int), 0, 1)] x y)) ∧
    (kruskal_mst 2 [((5 : Int), 0, 1)]).1.length = 2 - 1 := by
  have hok : EdgesOk 2 [((5 : Int), 0, 1)] := by
    intro e he
    fin_cases he
    exact ⟨by decide, by decide⟩
  have hadj : adjRel [((5 : Int), 0, 1)] 0 1 :=
    ⟨((5 : Int), 0, 1), List.mem_singleton_self _, Or.inl ⟨rfl, rfl⟩⟩
  have hconn : ∀ x y, x < 2 → y < 2 → connectedIn [((5 : Int), 0, 1)] x y := by
    intro x y hx hy
    interval_cases x <;> interval_cases y
    · exact connectedIn_refl 0
    · exact Relation.ReflTransGen.single hadj
    · exact connectedIn_symm (Relation.ReflTransGen.single hadj)
    · exact connectedIn_refl 1
  exact ⟨⟨by omega, hok, hconn⟩,
    (C1_kruskal_connected_min_spanning_tree (by omega) hok hconn).1⟩

/-- C2: for endpoints in range and `n ≥ 1`, the returned edge count plus
the number of connected components equals `n` (a minimum spanning
forest: the result is a spanning forest of minimal total weight), a
disconnected input yields fewer than `n - 1` edges, and fewer than
`n - 1` edges occur only for disconnected inputs. -/
theorem C2_kruskal_disconnected_spanning_forest {n : Nat} {edges : List Edge}
    (hn : 1 ≤ n) (hok : EdgesOk n edges) :
    (kruskal_mst n edges).1.length + numComponents n edges = n ∧
    ((∃ a b, a < n ∧ b < n ∧ ¬ connectedIn edges a b) →
      (kruskal_mst n edges).1.length < n - 1) ∧
    ((kruskal_mst n edges).1.length < n - 1 →
      ∃ a b, a < n ∧ b < n ∧ ¬ connectedIn edges a b) ∧
    SpanningForest n edges (kruskal_mst n edges).1 ∧
    ∀ S, SpanningForest n edges S →
      (kruskal_mst n edges).2 ≤ weightSum S := by
  obtain ⟨htw, hforest, hmem, hcount, hspan, hmin⟩ := kruskal_mst_spec hok
  refine ⟨hcount, ?_, ?_, ⟨hmem, hforest, hspan⟩, ?_⟩
  · rintro ⟨a, b, ha, hb, hnc⟩
    obtain ⟨hwfE, hlenE, hiffE⟩ := ufOfEdges_spec hok
    have hne : (ufOfEdges n edges).rootN a ≠ (ufOfEdges n edges).rootN b :=
      fun hc => hnc ((hiffE a b).mp hc)
    have h2 : 2 ≤ numComponents n edges := by
      unfold numComponents
      rw [UnionFind.setsCount_eq_image_rootN hwfE, hlenE]
      exact Finset.one_lt_card.mpr
        ⟨_, Finset.mem_image.mpr ⟨a, Finset.mem_range.mpr ha, rfl⟩,
         _, Finset.mem_image.mpr ⟨b, Finset.mem_range.mpr hb, rfl⟩, hne⟩
    have hab : a ≠ b := fun hc => hnc (hc ▸ connectedIn_refl a)
    omega
  · intro hlt
    by_contra hcon
    push_neg at hcon
    have h1 : numComponents n edges = 1 := numComponents_eq_one hn hok hcon
    omega
  · intro S hS
    rw [htw]
    exact hmin S hS

theorem C2_kruskal_disconnected_spanning_forest_witness :
    ((1 : Nat) ≤ 2 ∧ EdgesOk 2 ([] : List Edge)) ∧
    (kruskal_mst 2 ([] : List Edge)).1.length + numComponents 2 [] = 2 := by
  have hok : EdgesOk 2 ([] : List Edge) := by
    intro e he
    exact absurd he (List.not_mem_nil e)
  exact ⟨⟨by omega, hok⟩,
    (C2_kruskal_disconnected_spanning_forest (by omega) hok).1⟩

/-- C3: the returned `total_weight` equals the sum of the weights of the
returned edges. -/
theorem C3_total_weight_eq_sum {n : Nat} {edges : List Edge}
    (hok : EdgesOk n edges) :
    (kruskal_mst n edges).2 = weightSum (kruskal_mst n edges).1 :=
  (kruskal_mst_spec hok).1

theorem C3_total_weight_eq_sum_witness :
    EdgesOk 2 [((5 : Int), 0, 1), ((3 : Int), 1, 0)] ∧
    (kruskal_mst 2 [((5 : Int), 0, 1), ((3 : Int), 1, 0)]).2 =
      weightSum (kruskal_mst 2 [((5 : Int), 0, 1), ((3 : Int), 1, 0)]).1 := by
  have hok : EdgesOk 2 [((5 : Int), 0, 1), ((3 : Int), 1, 0)] := by
    intro e he
    fin_cases he <;> exact ⟨by decide, by decide⟩
  exact ⟨hok, C3_total_weight_eq_sum hok⟩

/-- C4: the returned edge list, viewed as an undirected graph, contains
no cycle: every returned edge is a bridge among the returned edges. -/
theorem C4_result_is_forest {n : Nat} {edges : List Edge}
    (hok : EdgesOk n edges) : IsForest (kruskal_mst n edges).1 :=
  (kruskal_mst_spec hok).2.1

theorem C4_result_is_forest_witness :
    EdgesOk 2 [((5 : Int), 0, 1), ((3 : Int), 1, 0)] ∧
    IsForest (kruskal_mst 2 [((5 : Int), 0, 1), ((3 : Int), 1, 0)]).1 := by
  have hok : EdgesOk 2 [((5 : Int), 0, 1), ((3 : Int), 1, 0)] := by
    intro e he
    fin_cases he <;> exact ⟨by decide, by decide⟩
  exact ⟨hok, C4_result_is_forest hok⟩

/-- C5: after any sequence of `union` calls on a fresh `UnionFind(n)`,
two in-range nodes have the same `find` root (with the two calls run in
sequence, as in the source) exactly when they are connected, directly or
transitively, by the accepted (`True`-returning) union calls. -/
theorem C5_partition_eq_accepted_closure {n : Nat} {ops : List (Nat × Nat)}
    (hok : ∀ p ∈ ops, p.1 < n ∧ p.2 < n) {a b : Nat}
    (ha : a < n) (hb : b < n) :
    (((runOps n ops).1.find a).1 = (((runOps n ops).1.find a).2.find b).1 ↔
      Relation.EqvGen (fun x y => (x, y) ∈ (runOps n ops).2) a b) := by
  obtain ⟨hwf, hlen, hiff⟩ := runOps_spec hok
  obtain ⟨h1, h2, -, -, -, -⟩ := UnionFind.find2_spec hwf
    (by rw [hlen]; exact ha) (by rw [hlen]; exact hb)
  rw [h1, h2]
  exact hiff a b

theorem C5_partition_eq_accepted_closure_witness :
    (∀ p ∈ [((0 : Nat), (1 : Nat))], p.1 < 2 ∧ p.2 < 2) ∧ (0 : Nat) < 2 ∧
      (1 : Nat) < 2 ∧
    (((runOps 2 [(0, 1)]).1.find 0).1 =
        (((runOps 2 [(0, 1)]).1.find 0).2.find 1).1 ↔
      Relation.EqvGen (fun x y => (x, y) ∈ (runOps 2 [(0, 1)]).2) 0 1) := by
  have hok : ∀ p ∈ [((0 : Nat), (1 : Nat))], p.1 < 2 ∧ p.2 < 2 := by decide
  exact ⟨hok, by omega, by omega,
    C5_partition_eq_accepted_closure hok (by omega) (by omega)⟩

/-- C6: calling `union` on two nodes already in the same set returns
`False` and alters no observable `find` result. -/
theorem C6_union_same_set_noop {uf : UnionFind} (h : uf.WF) {a b : Nat}
    (ha : a < uf.parent.length) (hb : b < uf.parent.length)
    (heq : (uf.find a).1 = ((uf.find a).2.find b).1) :
    (uf.union a b).1 = false ∧
    ∀ x, x < uf.parent.length →
      ((uf.union a b).2.find x).1 = (uf.find x).1 := by
  obtain ⟨h1, h2, -, -, -, -⟩ := UnionFind.find2_spec h ha hb
  rw [h1, h2] at heq
  obtain ⟨hfalse, hwf2, hlen2, -, hpres⟩ := UnionFind.union_false_spec h ha hb heq
  refine ⟨hfalse, ?_⟩
  intro x hx
  rw [UnionFind.find_fst hwf2 (by rw [hlen2]; exact hx),
    UnionFind.find_fst h hx, hpres x hx]

theorem C6_union_same_set_noop_witness :
    (UnionFind.init 2).WF ∧ (0 : Nat) < (UnionFind.init 2).parent.length ∧
    ((UnionFind.init 2).find 0).1 =
      (((UnionFind.init 2).find 0).2.find 0).1 ∧
    ((UnionFind.init 2).union 0 0).1 = false := by
  have hwf : (UnionFind.init 2).WF := ⟨by decide, by decide, by decide⟩
  have h0 : (0 : Nat) < (UnionFind.init 2).parent.length := by decide
  have heq : ((UnionFind.init 2).find 0).1 =
      (((UnionFind.init 2).find 0).2.find 0).1 := by decide
  exact ⟨hwf, h0, heq, (C6_union_same_set_noop hwf h0 h0 heq).1⟩

/-- C7: `union` on two nodes of different sets returns `True`, makes
their `find` roots equal, decreases the number of distinct sets by
exactly 1, and on equal ranks attaches the root of the second set under
the root of the first and increments that root's rank by 1. -/
theorem C7_union_different_sets {uf : UnionFind} (h : uf.WF) {a b : Nat}
    (ha : a < uf.parent.length) (hb : b < uf.parent.length)
    (hne : (uf.find a).1 ≠ ((uf.find a).2.find b).1) :
    (uf.union a b).1 = true ∧
    ((uf.union a b).2.find a).1 = ((uf.union a b).2.find b).1 ∧
    (uf.union a b).2.setsCount + 1 = uf.setsCount ∧
    (uf.rank.getD (uf.rootN a) 0 = uf.rank.getD (uf.rootN b) 0 →
      (uf.union a b).2.parent.getD (uf.rootN b) (uf.rootN b) = uf.rootN a ∧
      (uf.union a b).2.rank.getD (uf.rootN a) 0 =
        uf.rank.getD (uf.rootN a) 0 + 1) := by
  obtain ⟨h1, h2, -, -, -, -⟩ := UnionFind.find2_spec h ha hb
  rw [h1, h2] at hne
  obtain ⟨s, d, hsd, htrue, hwf3, hlen3, hform⟩ :=
    UnionFind.union_true_spec h ha hb hne
  refine ⟨htrue, ?_, UnionFind.union_true_setsCount h ha hb hne, ?_⟩
  · rw [UnionFind.find_fst hwf3 (by rw [hlen3]; exact ha),
      UnionFind.find_fst hwf3 (by rw [hlen3]; exact hb),
      hform a ha, hform b hb]
    rcases hsd with ⟨rfl, rfl⟩ | ⟨rfl, rfl⟩
    · rw [if_pos rfl, if_neg (Ne.symm hne)]
    · rw [if_neg hne, if_pos rfl]
  · intro hrk
    exact UnionFind.union_equal_rank_spec h ha hb hne hrk

theorem C7_union_different_sets_witness :
    (UnionFind.init 2).WF ∧ (0 : Nat) < (UnionFind.init 2).parent.length ∧
    (1 : Nat) < (UnionFind.init 2).parent.length ∧
    ((UnionFind.init 2).find 0).1 ≠
      (((UnionFind.init 2).find 0).2.find 1).1 ∧
    ((UnionFind.init 2).union 0 1).1 = true ∧
    ((UnionFind.init 2).union 0 1).2.setsCount + 1 =
      (UnionFind.init 2).setsCount := by
  have hwf : (UnionFind.init 2).WF := ⟨by decide, by decide, by decide⟩
  have h0 : (0 : Nat) < (UnionFind.init 2).parent.length := by decide
  have h1 : (1 : Nat) < (UnionFind.init 2).parent.length := by decide
  have hne : ((UnionFind.init 2).find 0).1 ≠
      (((UnionFind.init 2).find 0).2.find 1).1 := by decide
  have hmain := C7_union_different_sets hwf h0 h1 hne
  exact ⟨hwf, h0, h1, hne, hmain.1, hmain.2.2.1⟩

/-- C8 (counterexample to the claim as stated): on `UnionFind(3)`,
`find(-1)` does not raise an index error; Python's negative indexing
aliases `parent[-1]` to `parent[2]` and the call returns root 2. -/
theorem C8_counterexample_negative_find_succeeds :
    pyFind (UnionFind.init 3).parent (-1) = some (2, [0, 1, 2]) := by decide

/-- C8 (amended): on `UnionFind(n)`, `find(node)` raises an
index-out-of-range error exactly when `node ≥ n` or `node < -n`; a
negative `node` with `-n ≤ node < 0` is aliased by Python's negative
indexing and succeeds. -/
theorem C8_find_out_of_range_fails (n : Nat) (node : Int) :
    pyFind (UnionFind.init n).parent node = none ↔
      ((n : Int) ≤ node ∨ node < -(n : Int)) :=
  pyFind_init_fail_iff n node

/-- C9: after `find(x)` returns root `r`, `parent[x] = r`, every node
visited on the way to the root has `parent[y] = r`, the root itself
satisfies `parent[r] = r`, and no `find` result (set membership) is
changed. -/
theorem C9_find_path_compression {uf : UnionFind} (h : uf.WF) {x : Nat}
    (hx : x < uf.parent.length) :
    (uf.find x).2.parent.getD x x = (uf.find x).1 ∧
    (∀ y ∈ uf.findPath x, (uf.find x).2.parent.getD y y = (uf.find x).1) ∧
    (uf.find x).2.parent.getD (uf.find x).1 (uf.find x).1 = (uf.find x).1 ∧
    ∀ a, a < uf.parent.length → ((uf.find x).2.find a).1 = (uf.find a).1 := by
  have hfst := UnionFind.find_fst h hx
  have hgetD := UnionFind.find_parent_getD h hx
  have hwf2 := UnionFind.find_wf h hx
  have hlen2 := UnionFind.find_parent_length h hx
  refine ⟨?_, ?_, ?_, ?_⟩
  · rw [hfst, hgetD x]
    by_cases hmem : x ∈ uf.findPath x
    · rw [if_pos hmem]
    · rw [if_neg hmem]
      by_cases hroot : uf.parent.getD x x = x
      · rw [UnionFind.rootN_of_isRoot hroot]
        exact hroot
      · exfalso
        obtain ⟨m, hm⟩ : ∃ m, uf.parent.length = m + 1 :=
          ⟨uf.parent.length - 1, by omega⟩
        apply hmem
        show x ∈ pathAux uf.parent x uf.parent.length
        rw [hm]
        exact pathAux_self_mem hroot m
  · intro y hy
    rw [hfst, hgetD y, if_pos hy]
  · rw [hfst, hgetD (uf.rootN x),
      if_neg (show uf.rootN x ∉ uf.findPath x from
        UnionFind.rootN_notMem_path h hx)]
    exact UnionFind.rootN_isRoot h hx
  · intro a ha2
    rw [UnionFind.find_fst hwf2 (by rw [hlen2]; exact ha2),
      UnionFind.find_fst h ha2, UnionFind.find_rootN_eq h hx ha2]

theorem C9_find_path_compression_witness :
    (UnionFind.mk [0, 0, 1] [2, 1, 0]).WF ∧
    (2 : Nat) < (UnionFind.mk [0, 0, 1] [2, 1, 0]).parent.length ∧
    ((UnionFind.mk [0, 0, 1] [2, 1, 0]).find 2).2.parent.getD 2 2 =
      ((UnionFind.mk [0, 0, 1] [2, 1, 0]).find 2).1 := by
  have hwf : (UnionFind.mk [0, 0, 1] [2, 1, 0]).WF :=
    ⟨by decide, by decide, by decide⟩
  have h2 : (2 : Nat) < (UnionFind.mk [0, 0, 1] [2, 1, 0]).parent.length := by
    decide
  exact ⟨hwf, h2, (C9_find_path_compression hwf h2).1⟩

/-- C10: the content of the caller's edge list after the in-place sort
performed by `kruskal_mst` is modelled by `sortEdges`: `kruskal_mst`
consumes exactly `sortEdges edges`, which is a permutation of the input
in non-decreasing order of weight, with edges of equal weight kept in
their original relative order (a stable sort on the weight component
only). -/
theorem C10_sort_inplace_stable (n : Nat) (edges : List Edge) :
    kruskal_mst n edges =
      kruskalFold n (sortEdges edges) (UnionFind.init n) [] 0 ∧
    List.Perm (sortEdges edges) edges ∧
    (sortEdges edges).Pairwise wle ∧
    ∀ w : Int, (sortEdges edges).filter (fun f => decide (f.1 = w)) =
      edges.filter (fun f => decide (f.1 = w)) :=
  ⟨rfl, sortEdges_perm edges, sortEdges_sorted edges, filter_sortEdges edges⟩
